import Mathlib

/-!
# Verification of `lru-cache` (`src/lib.rs`)

A shallow embedding of the arena-based LRU cache from `src/lib.rs`:
a `Graph` (node arena forming a doubly linked list addressed by integer
node ids) together with an `LruCache` mapping keys to node ids.

Modelling conventions:
* `std::collections::HashMap` is modelled as an association list
  (`List (α × β)`) whose entry order is unobservable through the API used
  by the code (lookup, insert, remove, len).
* `HashMap::with_capacity(c)` / `HashMap::capacity()` are modelled by a
  `capacity` field that both `capacity()` and the eviction test read,
  exactly as the code reads one and the same map capacity for both.
  `LruCache.new` fills the field with the requested bound `c` (an
  idealisation adequate for properties relating `len()`, eviction and
  `capacity()` to each other); `LruCache.newStd` fills it with the value
  std's map actually reports (see `hashbrownCapacity`), which is what the
  exact result of `capacity()` depends on.
* Panics (`unwrap` on `None`, `get_many_mut` on missing or overlapping
  keys) are modelled by an outer `Option`: a `none` result of an operation
  is a panic, while an inner `Option` is the value the Rust function
  returns.
-/

set_option autoImplicit false

namespace LruSpec

universe u v

variable {α : Type u} {β : Type v} {K : Type u} {V : Type v} {T : Type v}

/-! ## Association lists (model of `HashMap`) -/

/-- First value stored under key `k`, the model of `HashMap::get`. -/
def lookupA [DecidableEq α] : List (α × β) → α → Option β
  | [], _ => none
  | (a, b) :: rest, k => if a = k then some b else lookupA rest k

/-- Drop every entry with key `k`, the model of `HashMap::remove`
(on the lists built by `insertA` keys are unique, so at most one entry
is dropped). -/
def eraseA [DecidableEq α] : List (α × β) → α → List (α × β)
  | [], _ => []
  | (a, b) :: rest, k => if a = k then eraseA rest k else (a, b) :: eraseA rest k

/-- Store `v` under `k`, replacing any previous entry, the model of
`HashMap::insert`. -/
def insertA [DecidableEq α] (l : List (α × β)) (k : α) (v : β) : List (α × β) :=
  (k, v) :: eraseA l k

/-- Apply `f` to the value stored under `k`, the model of in-place
mutation through `HashMap::get_mut`. -/
def updateA [DecidableEq α] : List (α × β) → α → (β → β) → List (α × β)
  | [], _, _ => []
  | (a, b) :: rest, k, f =>
      if a = k then (a, f b) :: updateA rest k f else (a, b) :: updateA rest k f

/-! ## The node arena (`Graph` in `src/lib.rs`) -/

/-- `struct Node<T>` from `src/lib.rs`. -/
structure Node (T : Type v) where
  next_id : Option Nat
  prev_id : Option Nat
  element : T
deriving DecidableEq

/-- `struct Graph<T>` from `src/lib.rs`: the arena of nodes forming a
doubly linked list addressed by node ids. -/
structure Graph (T : Type v) where
  nodes : List (Nat × Node T)
  head_id : Option Nat
  tail_id : Option Nat
deriving DecidableEq

/-- `Graph::with_capacity` (the capacity is only an allocation hint). -/
def Graph.with_capacity (_capacity : Nat) : Graph T :=
  { nodes := [], head_id := none, tail_id := none }

/-- `Graph::remove`.  A `none` result is a panic (a failing `unwrap` or an
overlapping/missing `get_many_mut`); `some (none, g)` is Rust's `None`
return with the state unchanged; `some (some t, g')` returns the removed
element. -/
def Graph.remove (g : Graph T) (node_id : Nat) : Option (Option T × Graph T) :=
  match lookupA g.nodes node_id with
  | none => some (none, g)
  | some node =>
    let nodes1 := eraseA g.nodes node_id
    match node.prev_id, node.next_id with
    | some prev_id, some next_id =>
      if prev_id = next_id then none
      else
        match lookupA nodes1 prev_id, lookupA nodes1 next_id with
        | some _, some _ =>
            let nodes2 := updateA nodes1 next_id (fun nd => { nd with prev_id := some prev_id })
            let nodes3 := updateA nodes2 prev_id (fun nd => { nd with next_id := some next_id })
            some (some node.element, { g with nodes := nodes3 })
        | _, _ => none
    | some prev_id, none =>
      match lookupA nodes1 prev_id with
      | some _ =>
          some (some node.element,
            { nodes := updateA nodes1 prev_id (fun nd => { nd with next_id := none }),
              head_id := g.head_id, tail_id := some prev_id })
      | none => none
    | none, some next_id =>
      match lookupA nodes1 next_id with
      | some _ =>
          some (some node.element,
            { nodes := updateA nodes1 next_id (fun nd => { nd with prev_id := none }),
              head_id := some next_id, tail_id := g.tail_id })
      | none => none
    | none, none =>
        some (some node.element, { nodes := nodes1, head_id := none, tail_id := none })

/-- `Graph::pop_front`. -/
def Graph.pop_front (g : Graph T) : Option (Option T × Graph T) :=
  match g.head_id with
  | none => some (none, g)
  | some head_id => g.remove head_id

/-- `Graph::push_back`.  A `none` result is a panic (the `unwrap` on the
stale tail lookup). -/
def Graph.push_back (g : Graph T) (node_id : Nat) (element : T) : Option (Graph T) :=
  match g.tail_id with
  | some tail_id =>
    match lookupA g.nodes tail_id with
    | none => none
    | some _ =>
        some { nodes :=
                 insertA (updateA g.nodes tail_id (fun nd => { nd with next_id := some node_id }))
                   node_id { next_id := none, prev_id := some tail_id, element := element },
               head_id := g.head_id, tail_id := some node_id }
  | none =>
      some { nodes := insertA g.nodes node_id
               { next_id := none, prev_id := none, element := element },
             head_id := some node_id, tail_id := some node_id }

/-- `Graph::get`: remove the node, push it back at the tail, and return
its element. -/
def Graph.get (g : Graph T) (node_id : Nat) : Option (Option T × Graph T) :=
  match g.remove node_id with
  | none => none
  | some (none, g') => some (none, g')
  | some (some element, g1) =>
    match g1.push_back node_id element with
    | none => none
    | some g2 =>
      match lookupA g2.nodes node_id with
      | none => none
      | some node => some (some node.element, g2)

/-! ## The list abstraction of a graph -/

/-- The id that the node before `rest` should name as successor: the id
at the head of `rest`, or `after` when `rest` is the final segment. -/
def nextIdOf (rest : List (Nat × T)) (after : Option Nat) : Option Nat :=
  match rest with
  | [] => after
  | (j, _) :: _ => some j

/-- The id that the segment after `l` should name as predecessor: the id
at the end of `l`, or `prev` when `l` is empty. -/
def prevIdOf : List (Nat × T) → Option Nat → Option Nat
  | [], prev => prev
  | (j, _) :: rest, _ => prevIdOf rest (some j)

/-- The arena `nodes` realises the consecutive segment `l` of the list:
each entry of `l` is stored with the correct element, predecessor and
successor links, where `prev` precedes the segment and `after` follows
it. -/
def segOk (nodes : List (Nat × Node T)) : Option Nat → List (Nat × T) → Option Nat → Prop
  | _, [], _ => True
  | prev, (i, x) :: rest, after =>
      lookupA nodes i = some { next_id := nextIdOf rest after, prev_id := prev, element := x } ∧
      segOk nodes (some i) rest after

instance segOkDecidable [DecidableEq T] (nodes : List (Nat × Node T)) :
    (prev : Option Nat) → (l : List (Nat × T)) → (after : Option Nat) →
      Decidable (segOk nodes prev l after)
  | _, [], _ => isTrue trivial
  | _prev, (i, _x) :: rest, after =>
      have : Decidable (segOk nodes (some i) rest after) :=
        segOkDecidable nodes (some i) rest after
      inferInstanceAs (Decidable (_ ∧ _))

/-- `g` is the doubly linked list whose entries, in order from least to
most recently used, are exactly `rep`. -/
def Represents (g : Graph T) (rep : List (Nat × T)) : Prop :=
  segOk g.nodes none rep none ∧
  g.head_id = rep.head?.map Prod.fst ∧
  g.tail_id = rep.getLast?.map Prod.fst ∧
  g.nodes.length = rep.length ∧
  (rep.map Prod.fst).Nodup ∧
  (g.nodes.map Prod.fst).Nodup ∧
  ∀ p ∈ g.nodes, p.1 ∈ rep.map Prod.fst

instance RepresentsDecidable [DecidableEq T] (g : Graph T) (rep : List (Nat × T)) :
    Decidable (Represents g rep) := by
  unfold Represents
  infer_instance

/-! ## The LRU cache (`LruCache` in `src/lib.rs`) -/

/-- `struct LruCache<K, V>` from `src/lib.rs`.  The Rust code stores no
capacity of its own: `LruCache::capacity` reads the allocation capacity
of the `node_ids` hash map, and the eviction test in `insert` reads the
very same quantity.  Here that shared quantity is recorded once in the
`capacity` field (set by the constructor); `LruCache.new` fills it with
the requested bound, `LruCache.newStd` with the value the standard
library's map actually reports. -/
structure LruCache (K : Type u) (V : Type v) where
  node_ids : List (K × Nat)
  graph : Graph (K × V)
  id : Nat
  capacity : Nat
deriving DecidableEq

/-- `LruCache::new`, idealising the map's capacity as the requested
bound.  Rust's `HashMap::with_capacity(c)` may allocate more (see
`hashbrownCapacity`), but since `capacity()` and the eviction test read
one and the same quantity, properties relating `len()`, eviction and
`capacity()` to each other are insensitive to which value the field
holds; only the exact value reported by `capacity()` depends on it, and
for that `LruCache.newStd` is the faithful constructor. -/
def LruCache.new (capacity : Nat) : LruCache K V :=
  { node_ids := [], graph := Graph.with_capacity capacity, id := 0, capacity := capacity }

/-- `LruCache::len`. -/
def LruCache.len (cache : LruCache K V) : Nat :=
  cache.node_ids.length

/-- `LruCache::get`.  A `none` result is a panic (the `unwrap` on the
arena lookup); `some (r, cache')` returns `r` with the state `cache'`. -/
def LruCache.get [DecidableEq K] (cache : LruCache K V) (k : K) :
    Option (Option V × LruCache K V) :=
  match lookupA cache.node_ids k with
  | none => some (none, cache)
  | some node_id =>
    match cache.graph.get node_id with
    | some (some (_, v), g') => some (some v, { cache with graph := g' })
    | _ => none

/-- `LruCache::remove`. -/
def LruCache.remove [DecidableEq K] (cache : LruCache K V) (k : K) :
    Option (Option V × LruCache K V) :=
  match lookupA cache.node_ids k with
  | none => some (none, cache)
  | some node_id =>
    match cache.graph.remove node_id with
    | some (some (_, v), g') =>
        some (some v, { cache with node_ids := eraseA cache.node_ids k, graph := g' })
    | _ => none

/-- `LruCache::insert`. -/
def LruCache.insert [DecidableEq K] (cache : LruCache K V) (k : K) (v : V) :
    Option (LruCache K V) :=
  match lookupA cache.node_ids k with
  | some node_id =>
    match cache.graph.get node_id with
    | some (some _, g') => some { cache with graph := g' }
    | _ => none
  | none =>
    let node_id := cache.id
    if cache.len = cache.capacity then
      match cache.graph.pop_front with
      | some (some (k0, _), g1) =>
        match g1.push_back node_id (k, v) with
        | some g2 =>
            some { node_ids := insertA (eraseA cache.node_ids k0) k node_id,
                   graph := g2, id := cache.id + 1, capacity := cache.capacity }
        | none => none
      | _ => none
    else
      match cache.graph.push_back node_id (k, v) with
      | some g2 =>
          some { node_ids := insertA cache.node_ids k node_id,
                 graph := g2, id := cache.id + 1, capacity := cache.capacity }
      | none => none

/-- The least power of two that is at least `n` (Rust's
`usize::next_power_of_two` for positive `n`). -/
def nextPow2 (n : Nat) : Nat := 2 ^ Nat.clog 2 n

/-- The capacity reported by Rust's `std::collections::HashMap` after
`with_capacity(c)` (the hashbrown sizing used by std): a request of 0
allocates nothing (capacity 0); a request up to 3 allocates 4 buckets
(capacity 3); up to 7 allocates 8 buckets (capacity 7); a larger
request rounds `c * 8 / 7` up to a power of two `B` and reports
`B / 8 * 7`.  The documented contract guarantees only `c ≤ capacity`;
the exact value is this implementation's choice. -/
def hashbrownCapacity (c : Nat) : Nat :=
  if c = 0 then 0
  else if c < 4 then 3
  else if c < 8 then 7
  else nextPow2 (c * 8 / 7) / 8 * 7

/-- `LruCache::new`, with the `capacity` field holding the value the
standard library's map actually reports for `with_capacity(c)` — the
quantity that both `LruCache::capacity` and the eviction test read in
`src/lib.rs`. -/
def LruCache.newStd (c : Nat) : LruCache K V :=
  { node_ids := [], graph := Graph.with_capacity c, id := 0,
    capacity := hashbrownCapacity c }

/-! ## The cache invariant -/

/-- The full structural invariant of the cache: the graph is a doubly
linked list representing the recency order `rep` (least recently used
first), node ids are below the id counter, and the key index and the
arena are in 1:1 correspondence, with at most `capacity` entries. -/
def CacheInv [DecidableEq K] (cache : LruCache K V) (rep : List (Nat × (K × V))) : Prop :=
  Represents cache.graph rep ∧
  (∀ p ∈ rep, p.1 < cache.id) ∧
  (∀ p ∈ rep, lookupA cache.node_ids p.2.1 = some p.1) ∧
  (∀ q ∈ cache.node_ids, ∃ p ∈ rep, p.1 = q.2 ∧ p.2.1 = q.1) ∧
  cache.node_ids.length = rep.length ∧
  (cache.node_ids.map Prod.fst).Nodup ∧
  (rep.map (fun p => p.2.1)).Nodup ∧
  cache.node_ids.length ≤ cache.capacity

instance CacheInvDecidable [DecidableEq K] [DecidableEq V] (cache : LruCache K V)
    (rep : List (Nat × (K × V))) : Decidable (CacheInv cache rep) := by
  unfold CacheInv
  infer_instance

/-! ## Operation traces -/

/-- One call of the public API. -/
inductive Op (K : Type u) (V : Type v) where
  | get (k : K)
  | insert (k : K) (v : V)
  | remove (k : K)

/-- Run one operation, keeping only the successor state (`none` is a
panic). -/
def step [DecidableEq K] (cache : LruCache K V) : Op K V → Option (LruCache K V)
  | Op.get k => (cache.get k).map Prod.snd
  | Op.insert k v => cache.insert k v
  | Op.remove k => (cache.remove k).map Prod.snd

/-- Run a sequence of operations. -/
def run [DecidableEq K] : LruCache K V → List (Op K V) → Option (LruCache K V)
  | cache, [] => some cache
  | cache, op :: ops =>
    match step cache op with
    | none => none
    | some cache' => run cache' ops

/-! ## Touch stamps: when each present key was last touched -/

/-- `p` was last touched strictly before `q`. -/
def stampLt (st : K → Option Nat) (p q : Nat × (K × V)) : Prop :=
  ∀ s1 s2, st p.2.1 = some s1 → st q.2.1 = some s2 → s1 < s2

/-- Update the last-touch stamps for one operation executed at time `t`
on `cache`: `insert` always touches its key, `get` touches its key
exactly when it hits, `remove` touches nothing. -/
def stampUpd [DecidableEq K] (cache : LruCache K V) (op : Op K V) (t : Nat)
    (st : K → Option Nat) : K → Option Nat :=
  match op with
  | Op.get k =>
    match lookupA cache.node_ids k with
    | some _ => fun k1 => if k1 = k then some t else st k1
    | none => st
  | Op.insert k _ => fun k1 => if k1 = k then some t else st k1
  | Op.remove _ => st

/-- Run a sequence of operations, tracking the time and the last-touch
stamp of every key. -/
def runT [DecidableEq K] : Nat → LruCache K V → (K → Option Nat) → List (Op K V) →
    Option (LruCache K V × (K → Option Nat))
  | _, cache, st, [] => some (cache, st)
  | t, cache, st, op :: ops =>
    match step cache op with
    | none => none
    | some cache1 => runT (t + 1) cache1 (stampUpd cache op t st) ops

/-- The stamp invariant: the recency list is ordered by last touch, all
touches happened before `t`, and every present key has been touched. -/
def StampInv [DecidableEq K] (cache : LruCache K V) (rep : List (Nat × (K × V)))
    (st : K → Option Nat) (t : Nat) : Prop :=
  CacheInv cache rep ∧
  (∀ p ∈ rep, ∃ s, st p.2.1 = some s ∧ s < t) ∧
  rep.Pairwise (stampLt st)

/-! ## Sample states used to witness the claims -/

/-- A two-insert trace. -/
def trW : List (Op Nat Nat) := [Op.insert 1 10, Op.insert 2 20]

/-- The state reached by `run (LruCache.new 2) trW`. -/
def cacheW : LruCache Nat Nat :=
  { node_ids := [(2, 1), (1, 0)],
    graph := { nodes := [(1, { next_id := none, prev_id := some 0, element := (2, 20) }),
                         (0, { next_id := some 1, prev_id := none, element := (1, 10) })],
               head_id := some 0, tail_id := some 1 },
    id := 2, capacity := 2 }

/-- The recency list of `cacheW` (least recently used first). -/
def repW : List (Nat × (Nat × Nat)) := [(0, (1, 10)), (1, (2, 20))]

/-- The state reached from `cacheW` by `insert 3 30` (which evicts key 1). -/
def cacheW3 : LruCache Nat Nat :=
  { node_ids := [(3, 2), (2, 1)],
    graph := { nodes := [(2, { next_id := none, prev_id := some 1, element := (3, 30) }),
                         (1, { next_id := some 2, prev_id := none, element := (2, 20) })],
               head_id := some 1, tail_id := some 2 },
    id := 3, capacity := 2 }

/-- A one-insert trace on a cache whose requested capacity is 1. -/
def trC4 : List (Op Nat Nat) := [Op.insert 1 10]

/-- The state reached by running `trC4` from `LruCache.newStd 1` (the
map allocated for a request of 1 reports capacity 3). -/
def cacheC4 : LruCache Nat Nat :=
  { node_ids := [(1, 0)],
    graph := { nodes := [(0, { next_id := none, prev_id := none, element := (1, 10) })],
               head_id := some 0, tail_id := some 0 },
    id := 1, capacity := 3 }

/-- A one-insert trace on a capacity-1 cache. -/
def trC1 : List (Op Nat Nat) := [Op.insert 1 10]

/-- The state reached by running `trC1` from `LruCache.new 1`. -/
def cacheC1 : LruCache Nat Nat :=
  { node_ids := [(1, 0)],
    graph := { nodes := [(0, { next_id := none, prev_id := none, element := (1, 10) })],
               head_id := some 0, tail_id := some 0 },
    id := 1, capacity := 1 }

/-- The touch stamps after running `trC1`. -/
def stC1 : Nat → Option Nat := fun k1 => if k1 = 1 then some 0 else none

/-- The state reached from `cacheC1` by `insert 2 20` (which evicts key 1). -/
def cacheC1' : LruCache Nat Nat :=
  { node_ids := [(2, 1)],
    graph := { nodes := [(1, { next_id := none, prev_id := none, element := (2, 20) })],
               head_id := some 1, tail_id := some 1 },
    id := 2, capacity := 1 }

/-! ## Theorems -/

@[simp] theorem lookupA_nil [DecidableEq α] (k : α) :
    lookupA ([] : List (α × β)) k = none := rfl

@[simp] theorem lookupA_cons [DecidableEq α] (a : α) (b : β) (l : List (α × β)) (k : α) :
    lookupA ((a, b) :: l) k = if a = k then some b else lookupA l k := rfl

theorem lookupA_mem [DecidableEq α] {l : List (α × β)} {k : α} {b : β}
    (h : lookupA l k = some b) : (k, b) ∈ l := by
  induction l with
  | nil => simp [lookupA] at h
  | cons p rest ih =>
    obtain ⟨a, b'⟩ := p
    rw [lookupA_cons] at h
    by_cases hak : a = k
    · rw [if_pos hak] at h
      injection h with h
      subst h
      subst hak
      exact List.mem_cons_self _ _
    · rw [if_neg hak] at h
      exact List.mem_cons_of_mem _ (ih h)

theorem lookupA_eq_none_of_not_mem [DecidableEq α] {l : List (α × β)} {k : α}
    (h : k ∉ l.map Prod.fst) : lookupA l k = none := by
  induction l with
  | nil => rfl
  | cons p rest ih =>
    obtain ⟨a, b⟩ := p
    simp only [List.map_cons, List.mem_cons] at h
    push_neg at h
    simp only [lookupA_cons, if_neg (fun hh : a = k => h.1 hh.symm)]
    exact ih h.2

theorem mem_map_fst_of_lookupA [DecidableEq α] {l : List (α × β)} {k : α} {b : β}
    (h : lookupA l k = some b) : k ∈ l.map Prod.fst :=
  List.mem_map_of_mem Prod.fst (lookupA_mem h)

@[simp] theorem eraseA_nil [DecidableEq α] (k : α) :
    eraseA ([] : List (α × β)) k = [] := rfl

theorem eraseA_cons [DecidableEq α] (a : α) (b : β) (l : List (α × β)) (k : α) :
    eraseA ((a, b) :: l) k =
      if a = k then eraseA l k else (a, b) :: eraseA l k := rfl

@[simp] theorem lookupA_eraseA_self [DecidableEq α] (l : List (α × β)) (k : α) :
    lookupA (eraseA l k) k = none := by
  induction l with
  | nil => rfl
  | cons p rest ih =>
    obtain ⟨a, b⟩ := p
    by_cases hak : a = k
    · simpa [eraseA_cons, if_pos hak] using ih
    · simpa [eraseA_cons, if_neg hak, lookupA_cons, if_neg hak] using ih

theorem lookupA_eraseA_ne [DecidableEq α] (l : List (α × β)) (k j : α) (h : j ≠ k) :
    lookupA (eraseA l k) j = lookupA l j := by
  induction l with
  | nil => rfl
  | cons p rest ih =>
    obtain ⟨a, b⟩ := p
    by_cases hak : a = k
    · subst hak
      rw [eraseA_cons, if_pos rfl, ih, lookupA_cons,
        if_neg (fun hh : a = j => h (hh ▸ rfl))]
    · rw [eraseA_cons, if_neg hak, lookupA_cons, lookupA_cons, ih]

@[simp] theorem lookupA_insertA_self [DecidableEq α] (l : List (α × β)) (k : α) (v : β) :
    lookupA (insertA l k v) k = some v := by
  simp [insertA, lookupA]

theorem lookupA_insertA_ne [DecidableEq α] (l : List (α × β)) (k j : α) (v : β) (h : j ≠ k) :
    lookupA (insertA l k v) j = lookupA l j := by
  simp only [insertA, lookupA_cons, if_neg (fun hh : k = j => h hh.symm)]
  exact lookupA_eraseA_ne l k j h

theorem lookupA_isSome_of_mem [DecidableEq α] {l : List (α × β)} {k : α}
    (h : k ∈ l.map Prod.fst) : ∃ b, lookupA l k = some b := by
  induction l with
  | nil => simp at h
  | cons p rest ih =>
    obtain ⟨a, b⟩ := p
    by_cases hak : a = k
    · exact ⟨b, by simp [lookupA_cons, hak]⟩
    · rw [List.map_cons] at h
      rcases List.mem_cons.mp h with hh | hh
      · exact absurd hh.symm hak
      · obtain ⟨b', hb'⟩ := ih hh
        exact ⟨b', by rw [lookupA_cons, if_neg hak, hb']⟩

theorem updateA_cons [DecidableEq α] (a : α) (b : β) (l : List (α × β)) (k : α) (f : β → β) :
    updateA ((a, b) :: l) k f =
      if a = k then (a, f b) :: updateA l k f else (a, b) :: updateA l k f := rfl

theorem lookupA_updateA [DecidableEq α] (l : List (α × β)) (k : α) (f : β → β) (j : α) :
    lookupA (updateA l k f) j =
      if j = k then (lookupA l k).map f else lookupA l j := by
  induction l with
  | nil => simp [updateA]
  | cons p rest ih =>
    obtain ⟨a, b⟩ := p
    by_cases hak : a = k
    · subst hak
      by_cases haj : a = j
      · subst haj
        simp [updateA_cons]
      · simp [updateA_cons, lookupA_cons, haj, Ne.symm haj, ih]
    · by_cases haj : a = j
      · subst haj
        simp [updateA_cons, hak, lookupA_cons, Ne.symm hak]
      · simp [updateA_cons, hak, haj, lookupA_cons, ih]

@[simp] theorem map_fst_updateA [DecidableEq α] (l : List (α × β)) (k : α) (f : β → β) :
    (updateA l k f).map Prod.fst = l.map Prod.fst := by
  induction l with
  | nil => rfl
  | cons p rest ih =>
    obtain ⟨a, b⟩ := p
    by_cases hak : a = k <;> simp [updateA_cons, hak, ih]

@[simp] theorem length_updateA [DecidableEq α] (l : List (α × β)) (k : α) (f : β → β) :
    (updateA l k f).length = l.length := by
  induction l with
  | nil => rfl
  | cons p rest ih =>
    obtain ⟨a, b⟩ := p
    by_cases hak : a = k <;> simp [updateA_cons, hak, ih]

theorem eraseA_of_not_mem [DecidableEq α] {l : List (α × β)} {k : α}
    (h : k ∉ l.map Prod.fst) : eraseA l k = l := by
  induction l with
  | nil => rfl
  | cons p rest ih =>
    obtain ⟨a, b⟩ := p
    simp only [List.map_cons, List.mem_cons] at h
    push_neg at h
    rw [eraseA_cons, if_neg (fun hh : a = k => h.1 hh.symm), ih h.2]

theorem map_fst_insertA_of_not_mem [DecidableEq α] {l : List (α × β)} {k : α}
    (h : k ∉ l.map Prod.fst) (v : β) :
    (insertA l k v).map Prod.fst = k :: l.map Prod.fst := by
  rw [insertA, List.map_cons, eraseA_of_not_mem h]

theorem length_insertA_of_not_mem [DecidableEq α] {l : List (α × β)} {k : α}
    (h : k ∉ l.map Prod.fst) (v : β) :
    (insertA l k v).length = l.length + 1 := by
  rw [insertA, List.length_cons, eraseA_of_not_mem h]

theorem eraseA_sublist [DecidableEq α] (l : List (α × β)) (k : α) :
    (eraseA l k).Sublist l := by
  induction l with
  | nil => simp
  | cons p rest ih =>
    obtain ⟨a, b⟩ := p
    by_cases hak : a = k
    · rw [eraseA_cons, if_pos hak]
      exact ih.cons _
    · rw [eraseA_cons, if_neg hak]
      exact ih.cons₂ _

theorem map_fst_eraseA_sublist [DecidableEq α] (l : List (α × β)) (k : α) :
    ((eraseA l k).map Prod.fst).Sublist (l.map Prod.fst) :=
  List.Sublist.map Prod.fst (eraseA_sublist l k)

theorem not_mem_map_fst_eraseA [DecidableEq α] (l : List (α × β)) (k : α) :
    k ∉ (eraseA l k).map Prod.fst := by
  induction l with
  | nil => simp
  | cons p rest ih =>
    obtain ⟨a, b⟩ := p
    by_cases hak : a = k
    · rw [eraseA_cons, if_pos hak]
      exact ih
    · rw [eraseA_cons, if_neg hak]
      simp only [List.map_cons, List.mem_cons]
      rintro (hh | hh)
      · exact hak hh.symm
      · exact ih hh

theorem mem_map_fst_eraseA_iff [DecidableEq α] (l : List (α × β)) (k j : α) :
    j ∈ (eraseA l k).map Prod.fst ↔ j ∈ l.map Prod.fst ∧ j ≠ k := by
  induction l with
  | nil => simp
  | cons p rest ih =>
    obtain ⟨a, b⟩ := p
    by_cases hak : a = k
    · subst hak
      rw [eraseA_cons, if_pos rfl, ih]
      constructor
      · rintro ⟨hm, hne⟩
        exact ⟨by simp [hm], hne⟩
      · rintro ⟨hm, hne⟩
        rw [List.map_cons] at hm
        rcases List.mem_cons.mp hm with hh | hh
        · exact absurd hh hne
        · exact ⟨hh, hne⟩
    · rw [eraseA_cons, if_neg hak]
      simp only [List.map_cons, List.mem_cons, ih]
      constructor
      · rintro (hh | ⟨hm, hne⟩)
        · exact ⟨Or.inl hh, fun he => hak (hh ▸ he ▸ rfl)⟩
        · exact ⟨Or.inr hm, hne⟩
      · rintro ⟨hh | hm, hne⟩
        · exact Or.inl hh
        · exact Or.inr ⟨hm, hne⟩

theorem length_eraseA_of_mem [DecidableEq α] {l : List (α × β)} {k : α}
    (hnd : (l.map Prod.fst).Nodup) (hmem : k ∈ l.map Prod.fst) :
    (eraseA l k).length + 1 = l.length := by
  induction l with
  | nil => simp at hmem
  | cons p rest ih =>
    obtain ⟨a, b⟩ := p
    simp only [List.map_cons, List.nodup_cons] at hnd
    rcases List.mem_cons.mp hmem with hh | hh
    · subst hh
      rw [eraseA_cons, if_pos rfl, eraseA_of_not_mem hnd.1]
      simp
    · have hak : a ≠ k := fun he => hnd.1 (he ▸ hh)
      rw [eraseA_cons, if_neg hak]
      simp only [List.length_cons]
      rw [ih hnd.2 hh]

@[simp] theorem nextIdOf_nil (after : Option Nat) :
    nextIdOf ([] : List (Nat × T)) after = after := rfl

@[simp] theorem nextIdOf_cons (j : Nat) (x : T) (rest : List (Nat × T)) (after : Option Nat) :
    nextIdOf ((j, x) :: rest) after = some j := rfl

@[simp] theorem prevIdOf_nil (prev : Option Nat) :
    prevIdOf ([] : List (Nat × T)) prev = prev := rfl

theorem nextIdOf_append (l1 l2 : List (Nat × T)) (after : Option Nat) :
    nextIdOf (l1 ++ l2) after = nextIdOf l1 (nextIdOf l2 after) := by
  cases l1 with
  | nil => rfl
  | cons p t => obtain ⟨j, x⟩ := p; rfl

theorem prevIdOf_cons (p : Nat × T) (t : List (Nat × T)) (prev : Option Nat) :
    prevIdOf (p :: t) prev = prevIdOf t (some p.1) := by
  obtain ⟨j, x⟩ := p
  rfl

theorem prevIdOf_eq_getLast (l : List (Nat × T)) (prev : Option Nat) (h : l ≠ []) :
    prevIdOf l prev = l.getLast?.map Prod.fst := by
  induction l generalizing prev with
  | nil => exact absurd rfl h
  | cons p t ih =>
    obtain ⟨j, x⟩ := p
    cases t with
    | nil => simp [prevIdOf]
    | cons q t' =>
      rw [prevIdOf_cons, ih (some j) (by simp), List.getLast?_cons_cons]

@[simp] theorem segOk_nil (nodes : List (Nat × Node T)) (prev after : Option Nat) :
    segOk nodes prev [] after := trivial

theorem segOk_cons (nodes : List (Nat × Node T)) (prev after : Option Nat)
    (i : Nat) (x : T) (rest : List (Nat × T)) :
    segOk nodes prev ((i, x) :: rest) after ↔
      lookupA nodes i = some { next_id := nextIdOf rest after, prev_id := prev, element := x } ∧
      segOk nodes (some i) rest after := Iff.rfl

theorem segOk_append (nodes : List (Nat × Node T)) (prev after : Option Nat)
    (l1 l2 : List (Nat × T)) :
    segOk nodes prev (l1 ++ l2) after ↔
      segOk nodes prev l1 (nextIdOf l2 after) ∧ segOk nodes (prevIdOf l1 prev) l2 after := by
  induction l1 generalizing prev with
  | nil => simp
  | cons p t ih =>
    obtain ⟨i, x⟩ := p
    rw [List.cons_append, segOk_cons, segOk_cons, nextIdOf_append, ih (some i),
      prevIdOf_cons]
    tauto

theorem segOk_congr {nodes nodes' : List (Nat × Node T)} {l : List (Nat × T)}
    (h : ∀ i ∈ l.map Prod.fst, lookupA nodes' i = lookupA nodes i)
    (prev after : Option Nat) :
    segOk nodes' prev l after ↔ segOk nodes prev l after := by
  induction l generalizing prev with
  | nil => simp
  | cons p t ih =>
    obtain ⟨i, x⟩ := p
    rw [segOk_cons, segOk_cons, h i (by simp)]
    have ht : ∀ j ∈ t.map Prod.fst, lookupA nodes' j = lookupA nodes j := by
      intro j hj
      exact h j (by simp [hj])
    rw [ih ht (some i)]

theorem head?_append_of_left_ne_nil {γ : Type u} (l1 l2 : List γ) (h : l1 ≠ []) :
    (l1 ++ l2).head? = l1.head? := by
  cases l1 with
  | nil => exact absurd rfl h
  | cons a t => rfl

theorem getLast?_append_of_right_ne_nil {γ : Type u} (l1 l2 : List γ) (h : l2 ≠ []) :
    (l1 ++ l2).getLast? = l2.getLast? := by
  induction l1 with
  | nil => rfl
  | cons a t ih =>
    rw [List.cons_append]
    cases ht : t ++ l2 with
    | nil =>
      rcases List.append_eq_nil.mp ht with ⟨_, h2⟩
      exact absurd h2 h
    | cons b u =>
      rw [List.getLast?_cons_cons, ← ht, ih]

theorem prevIdOf_concat (L : List (Nat × T)) (p : Nat) (y : T) (prev : Option Nat) :
    prevIdOf (L ++ [(p, y)]) prev = some p := by
  rw [prevIdOf_eq_getLast _ _ (by simp), List.getLast?_concat]
  rfl

theorem segOk_mem_lookupA {nodes : List (Nat × Node T)} {l : List (Nat × T)}
    {prev after : Option Nat} (h : segOk nodes prev l after) {i : Nat} {x : T}
    (hmem : (i, x) ∈ l) : ∃ nd : Node T, lookupA nodes i = some nd ∧ nd.element = x := by
  induction l generalizing prev with
  | nil => simp at hmem
  | cons p t ih =>
    obtain ⟨j, y⟩ := p
    rw [segOk_cons] at h
    rcases List.mem_cons.mp hmem with hh | hh
    · injection hh with h1 h2
      subst h1
      subst h2
      exact ⟨_, h.1, rfl⟩
    · exact ih h.2 hh

/-! ## Specifications of the graph operations -/

theorem not_mem_nodes_of_represents {g : Graph T} {rep : List (Nat × T)}
    (h : Represents g rep) {i : Nat} (hi : i ∉ rep.map Prod.fst) :
    i ∉ g.nodes.map Prod.fst := by
  obtain ⟨-, -, -, -, -, -, hsub⟩ := h
  intro hmem
  rcases List.mem_map.mp hmem with ⟨q, hq, rfl⟩
  exact hi (hsub q hq)

theorem Graph.remove_absent_spec {g : Graph T} {rep : List (Nat × T)} {i : Nat}
    (h : Represents g rep) (hi : i ∉ rep.map Prod.fst) :
    g.remove i = some (none, g) := by
  have : lookupA g.nodes i = none :=
    lookupA_eq_none_of_not_mem (not_mem_nodes_of_represents h hi)
  simp [Graph.remove, this]

theorem Graph.remove_present_spec {g : Graph T} {l1 l2 : List (Nat × T)}
    {i : Nat} {x : T} (h : Represents g (l1 ++ (i, x) :: l2)) :
    ∃ g' : Graph T, g.remove i = some (some x, g') ∧ Represents g' (l1 ++ l2) := by
  obtain ⟨hseg, hhead, htail, hlen, hndrep, hndnd, hsub⟩ := h
  rw [segOk_append] at hseg
  obtain ⟨hseg1, hseg2⟩ := hseg
  rw [segOk_cons] at hseg2
  obtain ⟨hlooki, hseg3⟩ := hseg2
  simp only [nextIdOf_cons] at hseg1
  rw [List.map_append, List.map_cons, List.nodup_append] at hndrep
  obtain ⟨hnd1, hnd2, hdisj⟩ := hndrep
  rw [List.nodup_cons] at hnd2
  obtain ⟨hil2, hnd3⟩ := hnd2
  have hil1 : i ∉ l1.map Prod.fst := fun hm => hdisj hm (List.mem_cons_self _ _)
  have himem : i ∈ g.nodes.map Prod.fst := mem_map_fst_of_lookupA hlooki
  have hlen1 : (eraseA g.nodes i).length + 1 = g.nodes.length :=
    length_eraseA_of_mem hndnd himem
  rw [List.length_append, List.length_cons] at hlen
  have hnd1' : ((eraseA g.nodes i).map Prod.fst).Nodup :=
    List.Nodup.sublist (map_fst_eraseA_sublist _ _) hndnd
  have hmem' : ∀ j, j ∈ (eraseA g.nodes i).map Prod.fst → j ∈ (l1 ++ l2).map Prod.fst := by
    intro j hj
    rw [mem_map_fst_eraseA_iff] at hj
    obtain ⟨hjn, hjne⟩ := hj
    rcases List.mem_map.mp hjn with ⟨q, hq, rfl⟩
    have hq2 := hsub q hq
    rw [List.map_append, List.map_cons] at hq2
    rw [List.map_append]
    rcases List.mem_append.mp hq2 with hh | hh
    · exact List.mem_append.mpr (Or.inl hh)
    · rcases List.mem_cons.mp hh with hh2 | hh2
      · exact absurd hh2 hjne
      · exact List.mem_append.mpr (Or.inr hh2)
  rcases l2 with _ | ⟨⟨n, xn⟩, l2'⟩
  · rcases List.eq_nil_or_concat l1 with rfl | ⟨l1', ⟨p, xp⟩, rfl⟩
      <;> simp only [List.concat_eq_append] at *
    · -- removing the only node
      simp only [nextIdOf_nil, prevIdOf_nil] at hlooki
      refine ⟨{ nodes := eraseA g.nodes i, head_id := none, tail_id := none }, ?_, ?_⟩
      · simp [Graph.remove, hlooki]
      · have hnil : eraseA g.nodes i = [] := by
          apply List.eq_nil_of_length_eq_zero
          simp only [List.length_nil, List.length_cons] at hlen
          omega
        exact ⟨trivial, rfl, rfl, by simp [hnil], by simp, by simp [hnil], by simp [hnil]⟩
    · -- removing the tail node
      simp only [nextIdOf_nil, prevIdOf_concat] at hlooki
      rw [segOk_append, segOk_cons] at hseg1
      obtain ⟨hseg1a, hlookp, -⟩ := hseg1
      simp only [nextIdOf_cons] at hseg1a
      simp only [nextIdOf_nil] at hlookp
      have hp_mem : p ∈ (l1' ++ [(p, xp)]).map Prod.fst := by simp
      have hp_ne_i : p ≠ i := fun he => hil1 (he ▸ hp_mem)
      rw [List.map_append, List.nodup_append] at hnd1
      obtain ⟨hndl1', -, hdisj1⟩ := hnd1
      have hp_notin : p ∉ l1'.map Prod.fst := fun hm => hdisj1 hm (by simp)
      have hlookp1 : lookupA (eraseA g.nodes i) p =
          some { next_id := some i, prev_id := prevIdOf l1' none, element := xp } := by
        rw [lookupA_eraseA_ne _ _ _ hp_ne_i, hlookp]
      refine ⟨{ nodes := updateA (eraseA g.nodes i) p (fun nd => { nd with next_id := none }),
                head_id := g.head_id, tail_id := some p }, ?_, ?_⟩
      · simp [Graph.remove, hlooki, hlookp1]
      · rw [List.append_nil]
        refine ⟨?_, ?_, ?_, ?_, ?_, ?_, ?_⟩
        · rw [segOk_append, segOk_cons]
          refine ⟨?_, ?_, trivial⟩
          · simp only [nextIdOf_cons]
            have hframe : ∀ j ∈ l1'.map Prod.fst,
                lookupA (updateA (eraseA g.nodes i) p (fun nd => { nd with next_id := none })) j =
                  lookupA g.nodes j := by
              intro j hj
              have hj_ne_p : j ≠ p := fun he => hp_notin (he ▸ hj)
              have hj_ne_i : j ≠ i := fun he =>
                hil1 (by rw [List.map_append]; exact List.mem_append.mpr (Or.inl (he ▸ hj)))
              rw [lookupA_updateA, if_neg hj_ne_p, lookupA_eraseA_ne _ _ _ hj_ne_i]
            exact (segOk_congr hframe none (some p)).mpr hseg1a
          · rw [lookupA_updateA, if_pos rfl, hlookp1]
            rfl
        · rw [head?_append_of_left_ne_nil _ _ (by simp)] at hhead
          exact hhead
        · rw [List.getLast?_concat]
          rfl
        · rw [length_updateA]
          simp only [List.length_append, List.length_cons, List.length_nil] at hlen ⊢
          omega
        · rw [List.map_append, List.nodup_append]
          exact ⟨hndl1', by simp, hdisj1⟩
        · rw [map_fst_updateA]
          exact hnd1'
        · intro q hq
          have hq1 : q.1 ∈ (eraseA g.nodes i).map Prod.fst := by
            have := List.mem_map_of_mem Prod.fst hq
            rwa [map_fst_updateA] at this
          have := hmem' q.1 hq1
          rwa [List.append_nil] at this
  · rcases List.eq_nil_or_concat l1 with rfl | ⟨l1', ⟨p, xp⟩, rfl⟩
      <;> simp only [List.concat_eq_append] at *
    · -- removing the head node
      simp only [prevIdOf_nil, nextIdOf_cons] at hlooki
      rw [segOk_cons] at hseg3
      obtain ⟨hlookn, hseg4⟩ := hseg3
      have hn_ne_i : n ≠ i := by
        intro he
        exact hil2 (by rw [List.map_cons, ← he]; exact List.mem_cons_self _ _)
      rw [List.map_cons, List.nodup_cons] at hnd3
      obtain ⟨hn_notin, hndl2'⟩ := hnd3
      have hlookn1 : lookupA (eraseA g.nodes i) n =
          some { next_id := nextIdOf l2' none, prev_id := some i, element := xn } := by
        rw [lookupA_eraseA_ne _ _ _ hn_ne_i, hlookn]
      refine ⟨{ nodes := updateA (eraseA g.nodes i) n (fun nd => { nd with prev_id := none }),
                head_id := some n, tail_id := g.tail_id }, ?_, ?_⟩
      · simp [Graph.remove, hlooki, hlookn1]
      · rw [List.nil_append]
        refine ⟨?_, ?_, ?_, ?_, ?_, ?_, ?_⟩
        · rw [segOk_cons]
          constructor
          · rw [lookupA_updateA, if_pos rfl, hlookn1]
            rfl
          · have hframe : ∀ j ∈ l2'.map Prod.fst,
                lookupA (updateA (eraseA g.nodes i) n (fun nd => { nd with prev_id := none })) j =
                  lookupA g.nodes j := by
              intro j hj
              have hj_ne_n : j ≠ n := fun he => hn_notin (he ▸ hj)
              have hj_ne_i : j ≠ i := fun he =>
                hil2 (by rw [List.map_cons]; exact List.mem_cons_of_mem _ (he ▸ hj))
              rw [lookupA_updateA, if_neg hj_ne_n, lookupA_eraseA_ne _ _ _ hj_ne_i]
            exact (segOk_congr hframe (some n) none).mpr hseg4
        · rfl
        · rw [List.nil_append, List.getLast?_cons_cons] at htail
          exact htail
        · rw [length_updateA]
          simp only [List.length_nil, List.length_cons] at hlen ⊢
          omega
        · rw [List.map_cons, List.nodup_cons]
          exact ⟨hn_notin, hndl2'⟩
        · rw [map_fst_updateA]
          exact hnd1'
        · intro q hq
          have hq1 : q.1 ∈ (eraseA g.nodes i).map Prod.fst := by
            have := List.mem_map_of_mem Prod.fst hq
            rwa [map_fst_updateA] at this
          have := hmem' q.1 hq1
          rwa [List.nil_append] at this
    · -- removing an interior node
      simp only [nextIdOf_cons, prevIdOf_concat] at hlooki
      rw [segOk_append, segOk_cons] at hseg1
      obtain ⟨hseg1a, hlookp, -⟩ := hseg1
      simp only [nextIdOf_cons] at hseg1a
      simp only [nextIdOf_nil] at hlookp
      rw [segOk_cons] at hseg3
      obtain ⟨hlookn, hseg4⟩ := hseg3
      have hp_mem : p ∈ (l1' ++ [(p, xp)]).map Prod.fst := by simp
      have hn_mem2 : n ∈ (((n, xn) :: l2').map Prod.fst) := by simp
      have hp_ne_i : p ≠ i := fun he => hil1 (he ▸ hp_mem)
      have hn_ne_i : n ≠ i := by
        intro he
        exact hil2 (by rw [List.map_cons, ← he]; exact List.mem_cons_self _ _)
      have hp_ne_n : p ≠ n := by
        intro he
        exact hdisj hp_mem (List.mem_cons_of_mem _ (by rw [he]; exact hn_mem2))
      rw [List.map_append, List.nodup_append] at hnd1
      obtain ⟨hndl1', -, hdisj1⟩ := hnd1
      have hp_notin : p ∉ l1'.map Prod.fst := fun hm => hdisj1 hm (by simp)
      rw [List.map_cons, List.nodup_cons] at hnd3
      obtain ⟨hn_notin, hndl2'⟩ := hnd3
      have hlookp1 : lookupA (eraseA g.nodes i) p =
          some { next_id := some i, prev_id := prevIdOf l1' none, element := xp } := by
        rw [lookupA_eraseA_ne _ _ _ hp_ne_i, hlookp]
      have hlookn1 : lookupA (eraseA g.nodes i) n =
          some { next_id := nextIdOf l2' none, prev_id := some i, element := xn } := by
        rw [lookupA_eraseA_ne _ _ _ hn_ne_i, hlookn]
      refine ⟨{ nodes := updateA
                  (updateA (eraseA g.nodes i) n (fun nd => { nd with prev_id := some p }))
                  p (fun nd => { nd with next_id := some n }),
                head_id := g.head_id, tail_id := g.tail_id }, ?_, ?_⟩
      · simp [Graph.remove, hlooki, hlookp1, hlookn1, hp_ne_n]
      · refine ⟨?_, ?_, ?_, ?_, ?_, ?_, ?_⟩
        · rw [segOk_append, segOk_append, segOk_cons, segOk_cons]
          simp only [nextIdOf_cons, nextIdOf_nil, prevIdOf_concat]
          refine ⟨⟨?_, ?_, trivial⟩, ?_, ?_⟩
          · have hframe : ∀ j ∈ l1'.map Prod.fst,
                lookupA (updateA
                  (updateA (eraseA g.nodes i) n (fun nd => { nd with prev_id := some p }))
                  p (fun nd => { nd with next_id := some n })) j = lookupA g.nodes j := by
              intro j hj
              have hj_ne_p : j ≠ p := fun he => hp_notin (he ▸ hj)
              have hj_ne_i : j ≠ i := fun he =>
                hil1 (by rw [List.map_append]; exact List.mem_append.mpr (Or.inl (he ▸ hj)))
              have hj_ne_n : j ≠ n := by
                intro he
                have h1 : j ∈ (l1' ++ [(p, xp)]).map Prod.fst := by
                  rw [List.map_append]
                  exact List.mem_append.mpr (Or.inl hj)
                have h2 : j ∈ i :: ((n, xn) :: l2').map Prod.fst := by
                  rw [he]
                  exact List.mem_cons_of_mem _ hn_mem2
                exact hdisj h1 h2
              rw [lookupA_updateA, if_neg hj_ne_p, lookupA_updateA, if_neg hj_ne_n,
                lookupA_eraseA_ne _ _ _ hj_ne_i]
            exact (segOk_congr hframe none (some p)).mpr hseg1a
          · rw [lookupA_updateA, if_pos rfl, lookupA_updateA, if_neg hp_ne_n, hlookp1]
            rfl
          · rw [lookupA_updateA, if_neg (fun he : n = p => hp_ne_n he.symm),
              lookupA_updateA, if_pos rfl, hlookn1]
            rfl
          · have hframe : ∀ j ∈ l2'.map Prod.fst,
                lookupA (updateA
                  (updateA (eraseA g.nodes i) n (fun nd => { nd with prev_id := some p }))
                  p (fun nd => { nd with next_id := some n })) j = lookupA g.nodes j := by
              intro j hj
              have hj_ne_n : j ≠ n := fun he => hn_notin (he ▸ hj)
              have hj_ne_i : j ≠ i := fun he =>
                hil2 (by rw [List.map_cons]; exact List.mem_cons_of_mem _ (he ▸ hj))
              have hj_ne_p : j ≠ p := by
                intro he
                subst he
                have h1 : j ∈ (l1' ++ [(j, xp)]).map Prod.fst := by simp
                have h2 := List.mem_cons_of_mem (i, x).1
                  (by rw [List.map_cons]; exact List.mem_cons_of_mem _ hj :
                    j ∈ ((n, xn) :: l2').map Prod.fst)
                exact hdisj h1 h2
              rw [lookupA_updateA, if_neg hj_ne_p, lookupA_updateA, if_neg hj_ne_n,
                lookupA_eraseA_ne _ _ _ hj_ne_i]
            exact (segOk_congr hframe (some n) none).mpr hseg4
        · rw [head?_append_of_left_ne_nil _ _ (by simp)] at hhead
          rw [head?_append_of_left_ne_nil _ _ (by simp)]
          exact hhead
        · rw [getLast?_append_of_right_ne_nil _ _ (by simp), List.getLast?_cons_cons] at htail
          rw [getLast?_append_of_right_ne_nil _ _ (by simp)]
          exact htail
        · rw [length_updateA, length_updateA]
          simp only [List.length_append, List.length_cons, List.length_nil] at hlen ⊢
          omega
        · rw [List.map_append, List.nodup_append]
          refine ⟨?_, ?_, ?_⟩
          · rw [List.map_append, List.nodup_append]
            exact ⟨hndl1', by simp, hdisj1⟩
          · rw [List.map_cons, List.nodup_cons]
            exact ⟨hn_notin, hndl2'⟩
          · intro a ha
            have ha2 : a ∈ (l1' ++ [(p, xp)]).map Prod.fst := ha
            have := hdisj ha2
            intro hmem2
            exact this (List.mem_cons_of_mem _ hmem2)
        · rw [map_fst_updateA, map_fst_updateA]
          exact hnd1'
        · intro q hq
          have hq1 : q.1 ∈ (eraseA g.nodes i).map Prod.fst := by
            have := List.mem_map_of_mem Prod.fst hq
            rwa [map_fst_updateA, map_fst_updateA] at this
          exact hmem' q.1 hq1

theorem Graph.push_back_spec {g : Graph T} {rep : List (Nat × T)} {i : Nat} {x : T}
    (h : Represents g rep) (hi : i ∉ rep.map Prod.fst) :
    ∃ g', g.push_back i x = some g' ∧ Represents g' (rep ++ [(i, x)]) := by
  have hnotin : i ∉ g.nodes.map Prod.fst := not_mem_nodes_of_represents h hi
  obtain ⟨hseg, hhead, htail, hlen, hndrep, hndnd, hsub⟩ := h
  rcases List.eq_nil_or_concat rep with rfl | ⟨rep', ⟨t, xt⟩, rfl⟩
  · have hnil : g.nodes = [] := List.eq_nil_of_length_eq_zero (by simpa using hlen)
    have htl : g.tail_id = none := by simpa using htail
    refine ⟨{ nodes := insertA g.nodes i
                { next_id := none, prev_id := none, element := x },
              head_id := some i, tail_id := some i }, ?_, ?_⟩
    · simp [Graph.push_back, htl]
    · rw [hnil]
      exact ⟨⟨by simp [insertA], trivial⟩, rfl, rfl, by simp [insertA], by simp,
        by simp [insertA], by simp [insertA]⟩
  · simp only [List.concat_eq_append] at *
    rw [segOk_append, segOk_cons] at hseg
    obtain ⟨hsega, hlookt, -⟩ := hseg
    simp only [nextIdOf_cons] at hsega
    simp only [nextIdOf_nil] at hlookt
    have htl : g.tail_id = some t := by
      rw [htail, List.getLast?_concat]
      rfl
    have ht_mem : t ∈ (rep' ++ [(t, xt)]).map Prod.fst := by simp
    have ht_ne_i : t ≠ i := fun he => hi (he ▸ ht_mem)
    rw [List.map_append, List.nodup_append] at hndrep
    obtain ⟨hndr', -, hdisjr⟩ := hndrep
    have ht_notin : t ∉ rep'.map Prod.fst := fun hm => hdisjr hm (by simp)
    have hil : i ∉ rep'.map Prod.fst := fun hm =>
      hi (by rw [List.map_append]; exact List.mem_append.mpr (Or.inl hm))
    refine ⟨{ nodes := insertA (updateA g.nodes t (fun nd => { nd with next_id := some i }))
                i { next_id := none, prev_id := some t, element := x },
              head_id := g.head_id, tail_id := some i }, ?_, ?_⟩
    · simp [Graph.push_back, htl, hlookt]
    · have hnotin2 : i ∉ (updateA g.nodes t
          (fun nd => { nd with next_id := some i })).map Prod.fst := by
        rwa [map_fst_updateA]
      refine ⟨?_, ?_, ?_, ?_, ?_, ?_, ?_⟩
      · rw [segOk_append, segOk_append, segOk_cons, segOk_cons]
        simp only [nextIdOf_cons, nextIdOf_nil, prevIdOf_concat]
        refine ⟨⟨?_, ?_, trivial⟩, ?_, trivial⟩
        · have hframe : ∀ j ∈ rep'.map Prod.fst,
              lookupA (insertA (updateA g.nodes t (fun nd => { nd with next_id := some i }))
                i { next_id := none, prev_id := some t, element := x }) j =
                lookupA g.nodes j := by
            intro j hj
            have hj_ne_t : j ≠ t := fun he => ht_notin (he ▸ hj)
            have hj_ne_i : j ≠ i := fun he => hil (he ▸ hj)
            rw [lookupA_insertA_ne _ _ _ _ hj_ne_i, lookupA_updateA, if_neg hj_ne_t]
          exact (segOk_congr hframe none (some t)).mpr hsega
        · rw [lookupA_insertA_ne _ _ _ _ ht_ne_i, lookupA_updateA, if_pos rfl, hlookt]
          rfl
        · rw [lookupA_insertA_self]
      · rw [head?_append_of_left_ne_nil _ _ (by simp)]
        exact hhead
      · rw [List.getLast?_concat]
        rfl
      · rw [length_insertA_of_not_mem hnotin2, length_updateA]
        simp only [List.length_append, List.length_cons, List.length_nil] at hlen ⊢
        omega
      · rw [List.map_append, List.nodup_append]
        refine ⟨by rw [List.map_append, List.nodup_append]; exact ⟨hndr', by simp, hdisjr⟩,
          by simp, ?_⟩
        intro a ha hmem2
        have : a = i := by simpa using hmem2
        subst this
        exact hi ha
      · rw [map_fst_insertA_of_not_mem hnotin2, map_fst_updateA, List.nodup_cons]
        exact ⟨hnotin, hndnd⟩
      · intro q hq
        have hq1 : q.1 ∈ i :: g.nodes.map Prod.fst := by
          have := List.mem_map_of_mem Prod.fst hq
          rwa [map_fst_insertA_of_not_mem hnotin2, map_fst_updateA] at this
        rw [List.map_append]
        rcases List.mem_cons.mp hq1 with hh | hh
        · exact List.mem_append.mpr (Or.inr (by simp [hh]))
        · rcases List.mem_map.mp hh with ⟨q', hq', hfst⟩
          have hq2 := hsub q' hq'
          rw [hfst] at hq2
          exact List.mem_append.mpr (Or.inl hq2)

theorem Graph.pop_front_spec_nil {g : Graph T} (h : Represents g []) :
    g.pop_front = some (none, g) := by
  obtain ⟨-, hhead, -⟩ := h
  have : g.head_id = none := by simpa using hhead
  simp [Graph.pop_front, this]

theorem Graph.pop_front_spec_cons {g : Graph T} {i : Nat} {x : T} {rest : List (Nat × T)}
    (h : Represents g ((i, x) :: rest)) :
    ∃ g', g.pop_front = some (some x, g') ∧ Represents g' rest := by
  have hhead : g.head_id = some i := by
    obtain ⟨-, hh, -⟩ := h
    simpa using hh
  obtain ⟨g', hrem, hrep⟩ :=
    Graph.remove_present_spec
      (show Represents g ([] ++ (i, x) :: rest) from by simpa using h)
  refine ⟨g', ?_, by simpa using hrep⟩
  simp [Graph.pop_front, hhead, hrem]

theorem Graph.get_absent_spec {g : Graph T} {rep : List (Nat × T)} {i : Nat}
    (h : Represents g rep) (hi : i ∉ rep.map Prod.fst) :
    g.get i = some (none, g) := by
  simp [Graph.get, Graph.remove_absent_spec h hi]

theorem Graph.get_present_spec {g : Graph T} {l1 l2 : List (Nat × T)} {i : Nat} {x : T}
    (h : Represents g (l1 ++ (i, x) :: l2)) :
    ∃ g', g.get i = some (some x, g') ∧ Represents g' ((l1 ++ l2) ++ [(i, x)]) := by
  have hi : i ∉ (l1 ++ l2).map Prod.fst := by
    obtain ⟨-, -, -, -, hnd, -, -⟩ := h
    rw [List.map_append, List.map_cons, List.nodup_append, List.nodup_cons] at hnd
    obtain ⟨-, ⟨hil2, -⟩, hdisj⟩ := hnd
    rw [List.map_append]
    intro hmem
    rcases List.mem_append.mp hmem with hh | hh
    · exact hdisj hh (List.mem_cons_self _ _)
    · exact hil2 hh
  obtain ⟨g1, hrem, hrep1⟩ := Graph.remove_present_spec h
  obtain ⟨g2, hpush, hrep2⟩ := Graph.push_back_spec (x := x) hrep1 hi
  obtain ⟨nd, hl, hx⟩ := segOk_mem_lookupA hrep2.1 (show (i, x) ∈ _ from by simp)
  refine ⟨g2, ?_, hrep2⟩
  rw [Graph.get]
  simp only [hrem, hpush, hl, hx]

theorem mem_eraseA [DecidableEq α] {l : List (α × β)} {k : α} {q : α × β}
    (h : q ∈ eraseA l k) : q ∈ l ∧ q.1 ≠ k := by
  induction l with
  | nil => simp at h
  | cons p rest ih =>
    obtain ⟨a, b⟩ := p
    by_cases hak : a = k
    · rw [eraseA_cons, if_pos hak] at h
      obtain ⟨h1, h2⟩ := ih h
      exact ⟨List.mem_cons_of_mem _ h1, h2⟩
    · rw [eraseA_cons, if_neg hak] at h
      rcases List.mem_cons.mp h with hh | hh
      · subst hh
        exact ⟨List.mem_cons_self _ _, hak⟩
      · obtain ⟨h1, h2⟩ := ih hh
        exact ⟨List.mem_cons_of_mem _ h1, h2⟩

theorem perm_rotate {γ : Type u} (l1 l2 : List γ) (a : γ) :
    (l1 ++ a :: l2).Perm ((l1 ++ l2) ++ [a]) :=
  List.perm_middle.trans (List.perm_append_singleton a (l1 ++ l2)).symm

/-- Transport the bookkeeping clauses of `CacheInv` along a permutation
of the recency list, for operations that reorder the graph but leave the
key index unchanged. -/
theorem CacheInv_transport [DecidableEq K] {cache cache' : LruCache K V}
    {rep rep' : List (Nat × (K × V))}
    (h : CacheInv cache rep) (hperm : rep.Perm rep')
    (hrepr : Represents cache'.graph rep')
    (hids : cache'.node_ids = cache.node_ids)
    (hid : cache.id ≤ cache'.id) (hcap : cache'.capacity = cache.capacity) :
    CacheInv cache' rep' := by
  obtain ⟨-, hidb, hlk, hex, hlen, hndk, hndrk, hcapb⟩ := h
  refine ⟨hrepr, ?_, ?_, ?_, ?_, ?_, ?_, ?_⟩
  · intro p hp
    exact lt_of_lt_of_le (hidb p (hperm.mem_iff.mpr hp)) hid
  · intro p hp
    rw [hids]
    exact hlk p (hperm.mem_iff.mpr hp)
  · intro q hq
    rw [hids] at hq
    obtain ⟨p, hp, h1, h2⟩ := hex q hq
    exact ⟨p, hperm.mem_iff.mp hp, h1, h2⟩
  · rw [hids, hlen, hperm.length_eq]
  · rw [hids]
    exact hndk
  · exact ((hperm.map _).nodup_iff).mp hndrk
  · rw [hids, hcap]
    exact hcapb

/-! ## Specifications of the cache operations -/

theorem CacheInv_lookup_split [DecidableEq K] {cache : LruCache K V}
    {rep : List (Nat × (K × V))} {k : K} {i : Nat}
    (h : CacheInv cache rep) (hlk : lookupA cache.node_ids k = some i) :
    ∃ v l1 l2, rep = l1 ++ (i, (k, v)) :: l2 := by
  obtain ⟨-, -, -, hex, -⟩ := h
  obtain ⟨p, hp, h1, h2⟩ := hex (k, i) (lookupA_mem hlk)
  obtain ⟨pi, pk, pv⟩ := p
  simp only at h1 h2
  subst h1
  subst h2
  obtain ⟨l1, l2, hsplit⟩ := List.append_of_mem hp
  exact ⟨pv, l1, l2, hsplit⟩

theorem LruCache.get_spec_absent [DecidableEq K] {cache : LruCache K V} {k : K}
    (hlk : lookupA cache.node_ids k = none) :
    cache.get k = some (none, cache) := by
  simp [LruCache.get, hlk]

theorem LruCache.get_spec_present [DecidableEq K] {cache : LruCache K V}
    {rep l1 l2 : List (Nat × (K × V))} {i : Nat} {k : K} {v : V}
    (h : CacheInv cache rep) (hsplit : rep = l1 ++ (i, (k, v)) :: l2) :
    ∃ g2, cache.get k = some (some v, { cache with graph := g2 }) ∧
      CacheInv { cache with graph := g2 } ((l1 ++ l2) ++ [(i, (k, v))]) := by
  have hlk : lookupA cache.node_ids k = some i :=
    h.2.2.1 (i, (k, v)) (by rw [hsplit]; simp)
  have hrep : Represents cache.graph (l1 ++ (i, (k, v)) :: l2) := by
    rw [← hsplit]
    exact h.1
  obtain ⟨g2, hget, hrepr2⟩ := Graph.get_present_spec hrep
  refine ⟨g2, ?_, ?_⟩
  · simp only [LruCache.get, hlk, hget]
  · exact CacheInv_transport h (by rw [hsplit]; exact perm_rotate l1 l2 (i, (k, v)))
      hrepr2 rfl le_rfl rfl

theorem LruCache.remove_spec_absent [DecidableEq K] {cache : LruCache K V} {k : K}
    (hlk : lookupA cache.node_ids k = none) :
    cache.remove k = some (none, cache) := by
  simp [LruCache.remove, hlk]

theorem LruCache.remove_spec_present [DecidableEq K] {cache : LruCache K V}
    {rep l1 l2 : List (Nat × (K × V))} {i : Nat} {k : K} {v : V}
    (h : CacheInv cache rep) (hsplit : rep = l1 ++ (i, (k, v)) :: l2) :
    ∃ g', cache.remove k = some (some v,
        { cache with node_ids := eraseA cache.node_ids k, graph := g' }) ∧
      CacheInv { cache with node_ids := eraseA cache.node_ids k, graph := g' }
        (l1 ++ l2) := by
  obtain ⟨hrepr, hidb, hlkA, hex, hlen, hndk, hndrk, hcapb⟩ := h
  subst hsplit
  have hmid : (i, (k, v)) ∈ l1 ++ (i, (k, v)) :: l2 := by simp
  have hlk : lookupA cache.node_ids k = some i := hlkA _ hmid
  obtain ⟨g', hrem, hrepr'⟩ := Graph.remove_present_spec hrepr
  have hknd := hndrk
  rw [List.map_append, List.map_cons, List.nodup_append] at hknd
  obtain ⟨hknd1, hknd2, hkdisj⟩ := hknd
  rw [List.nodup_cons] at hknd2
  obtain ⟨hknotin2, hknd2'⟩ := hknd2
  have hknotin1 : k ∉ l1.map (fun p => p.2.1) := fun hm =>
    hkdisj hm (List.mem_cons_self _ _)
  have hkmem : k ∈ cache.node_ids.map Prod.fst := mem_map_fst_of_lookupA hlk
  have hlen' : (eraseA cache.node_ids k).length + 1 = cache.node_ids.length :=
    length_eraseA_of_mem hndk hkmem
  refine ⟨g', ?_, ?_⟩
  · simp only [LruCache.remove, hlk, hrem]
  · refine ⟨hrepr', ?_, ?_, ?_, ?_, ?_, ?_, ?_⟩
    · intro p hp
      apply hidb p
      rcases List.mem_append.mp hp with hh | hh
      · exact List.mem_append.mpr (Or.inl hh)
      · exact List.mem_append.mpr (Or.inr (List.mem_cons_of_mem _ hh))
    · intro p hp
      have hpk_ne : p.2.1 ≠ k := by
        intro he
        rcases List.mem_append.mp hp with hh | hh
        · have hmm : p.2.1 ∈ l1.map (fun q => q.2.1) := List.mem_map_of_mem _ hh
          rw [he] at hmm
          exact hknotin1 hmm
        · have hmm : p.2.1 ∈ l2.map (fun q => q.2.1) := List.mem_map_of_mem _ hh
          rw [he] at hmm
          exact hknotin2 hmm
      rw [lookupA_eraseA_ne _ _ _ hpk_ne]
      apply hlkA p
      rcases List.mem_append.mp hp with hh | hh
      · exact List.mem_append.mpr (Or.inl hh)
      · exact List.mem_append.mpr (Or.inr (List.mem_cons_of_mem _ hh))
    · intro q hq
      obtain ⟨hq1, hq2⟩ := mem_eraseA hq
      obtain ⟨p, hp, h1, h2⟩ := hex q hq1
      have hp' : p ∈ l1 ++ l2 := by
        rcases List.mem_append.mp hp with hh | hh
        · exact List.mem_append.mpr (Or.inl hh)
        · rcases List.mem_cons.mp hh with hh2 | hh2
          · exact absurd (by rw [← h2, hh2]) hq2
          · exact List.mem_append.mpr (Or.inr hh2)
      exact ⟨p, hp', h1, h2⟩
    · simp only [List.length_append, List.length_cons] at hlen ⊢
      omega
    · exact List.Nodup.sublist (map_fst_eraseA_sublist _ _) hndk
    · rw [List.map_append, List.nodup_append]
      refine ⟨hknd1, hknd2', ?_⟩
      intro a ha hmem2
      exact hkdisj ha (List.mem_cons_of_mem _ hmem2)
    · show (eraseA cache.node_ids k).length ≤ cache.capacity
      omega

theorem LruCache.insert_spec_hit [DecidableEq K] {cache : LruCache K V}
    {rep l1 l2 : List (Nat × (K × V))} {i : Nat} {k : K} {v : V}
    (h : CacheInv cache rep) (hsplit : rep = l1 ++ (i, (k, v)) :: l2) (v' : V) :
    ∃ g2, cache.insert k v' = some { cache with graph := g2 } ∧
      CacheInv { cache with graph := g2 } ((l1 ++ l2) ++ [(i, (k, v))]) := by
  have hlk : lookupA cache.node_ids k = some i :=
    h.2.2.1 (i, (k, v)) (by rw [hsplit]; simp)
  have hrep : Represents cache.graph (l1 ++ (i, (k, v)) :: l2) := by
    rw [← hsplit]
    exact h.1
  obtain ⟨g2, hget, hrepr2⟩ := Graph.get_present_spec hrep
  refine ⟨g2, ?_, ?_⟩
  · simp only [LruCache.insert, hlk, hget]
  · exact CacheInv_transport h (by rw [hsplit]; exact perm_rotate l1 l2 (i, (k, v)))
      hrepr2 rfl le_rfl rfl

theorem LruCache.insert_spec_new [DecidableEq K] {cache : LruCache K V}
    {rep : List (Nat × (K × V))} {k : K} (v : V)
    (h : CacheInv cache rep) (hlk : lookupA cache.node_ids k = none)
    (hne : cache.len ≠ cache.capacity) :
    ∃ g2, cache.insert k v = some
        { node_ids := insertA cache.node_ids k cache.id, graph := g2,
          id := cache.id + 1, capacity := cache.capacity } ∧
      CacheInv
        { node_ids := insertA cache.node_ids k cache.id, graph := g2,
          id := cache.id + 1, capacity := cache.capacity }
        (rep ++ [(cache.id, (k, v))]) := by
  obtain ⟨hrepr, hidb, hlkA, hex, hlen, hndk, hndrk, hcapb⟩ := h
  have hid_notin : cache.id ∉ rep.map Prod.fst := by
    intro hm
    rcases List.mem_map.mp hm with ⟨p, hp, hpe⟩
    exact absurd hpe (Nat.ne_of_lt (hidb p hp))
  obtain ⟨g2, hpush, hrepr2⟩ := Graph.push_back_spec (x := (k, v)) hrepr hid_notin
  have hk_notin : k ∉ cache.node_ids.map Prod.fst := by
    intro hm
    obtain ⟨b, hb⟩ := lookupA_isSome_of_mem hm
    rw [hlk] at hb
    cases hb
  have hk_notin_rep : k ∉ rep.map (fun p => p.2.1) := by
    intro hm
    rcases List.mem_map.mp hm with ⟨p, hp, hpe⟩
    have := hlkA p hp
    rw [hpe, hlk] at this
    cases this
  refine ⟨g2, ?_, ?_⟩
  · simp only [LruCache.insert, hlk, if_neg hne, hpush]
  · refine ⟨hrepr2, ?_, ?_, ?_, ?_, ?_, ?_, ?_⟩
    · intro p hp
      rcases List.mem_append.mp hp with hh | hh
      · exact Nat.lt_succ_of_lt (hidb p hh)
      · have : p = (cache.id, (k, v)) := by simpa using hh
        subst this
        exact Nat.lt_succ_self _
    · intro p hp
      rcases List.mem_append.mp hp with hh | hh
      · have hkey : p.2.1 ≠ k := by
          intro he
          have := hlkA p hh
          rw [he, hlk] at this
          cases this
        rw [lookupA_insertA_ne _ _ _ _ hkey]
        exact hlkA p hh
      · have : p = (cache.id, (k, v)) := by simpa using hh
        subst this
        exact lookupA_insertA_self _ _ _
    · intro q hq
      rw [insertA, eraseA_of_not_mem hk_notin] at hq
      rcases List.mem_cons.mp hq with hh | hh
      · subst hh
        exact ⟨(cache.id, (k, v)), by simp, rfl, rfl⟩
      · obtain ⟨p, hp, h1, h2⟩ := hex q hh
        exact ⟨p, List.mem_append.mpr (Or.inl hp), h1, h2⟩
    · rw [length_insertA_of_not_mem hk_notin]
      simp only [List.length_append, List.length_cons, List.length_nil]
      omega
    · rw [map_fst_insertA_of_not_mem hk_notin, List.nodup_cons]
      exact ⟨hk_notin, hndk⟩
    · rw [List.map_append, List.nodup_append]
      refine ⟨hndrk, by simp, ?_⟩
      intro a ha hmem2
      simp only [List.map_cons, List.map_nil, List.mem_singleton] at hmem2
      subst hmem2
      exact hk_notin_rep ha
    · show (insertA cache.node_ids k cache.id).length ≤ cache.capacity
      rw [length_insertA_of_not_mem hk_notin]
      simp only [LruCache.len] at hne
      omega

theorem LruCache.insert_spec_evict [DecidableEq K] {cache : LruCache K V}
    {i0 : Nat} {k0 : K} {v0 : V} {rest : List (Nat × (K × V))} {k : K} (v : V)
    (h : CacheInv cache ((i0, (k0, v0)) :: rest))
    (hlk : lookupA cache.node_ids k = none)
    (heq : cache.len = cache.capacity) :
    ∃ g2, cache.insert k v = some
        { node_ids := insertA (eraseA cache.node_ids k0) k cache.id, graph := g2,
          id := cache.id + 1, capacity := cache.capacity } ∧
      CacheInv
        { node_ids := insertA (eraseA cache.node_ids k0) k cache.id, graph := g2,
          id := cache.id + 1, capacity := cache.capacity }
        (rest ++ [(cache.id, (k, v))]) := by
  obtain ⟨hrepr, hidb, hlkA, hex, hlen, hndk, hndrk, hcapb⟩ := h
  obtain ⟨g1, hpop, hrepr1⟩ := Graph.pop_front_spec_cons hrepr
  have hid_notin : cache.id ∉ rest.map Prod.fst := by
    intro hm
    rcases List.mem_map.mp hm with ⟨p, hp, hpe⟩
    exact absurd hpe (Nat.ne_of_lt (hidb p (List.mem_cons_of_mem _ hp)))
  obtain ⟨g2, hpush, hrepr2⟩ := Graph.push_back_spec (x := (k, v)) hrepr1 hid_notin
  have hlk0 : lookupA cache.node_ids k0 = some i0 :=
    hlkA (i0, (k0, v0)) (List.mem_cons_self _ _)
  have hk0_mem : k0 ∈ cache.node_ids.map Prod.fst := mem_map_fst_of_lookupA hlk0
  have hlen0 : (eraseA cache.node_ids k0).length + 1 = cache.node_ids.length :=
    length_eraseA_of_mem hndk hk0_mem
  have hk_notin : k ∉ cache.node_ids.map Prod.fst := by
    intro hm
    obtain ⟨b, hb⟩ := lookupA_isSome_of_mem hm
    rw [hlk] at hb
    cases hb
  have hk_notin' : k ∉ (eraseA cache.node_ids k0).map Prod.fst := fun hm =>
    hk_notin ((map_fst_eraseA_sublist _ _).subset hm)
  have hk_notin_rep : k ∉ ((i0, (k0, v0)) :: rest).map (fun p => p.2.1) := by
    intro hm
    rcases List.mem_map.mp hm with ⟨p, hp, hpe⟩
    have := hlkA p hp
    rw [hpe, hlk] at this
    cases this
  rw [List.map_cons, List.nodup_cons] at hndrk
  obtain ⟨hk0_notin_rest, hndrest⟩ := hndrk
  refine ⟨g2, ?_, ?_⟩
  · simp only [LruCache.insert, hlk, if_pos heq, hpop, hpush]
  · refine ⟨hrepr2, ?_, ?_, ?_, ?_, ?_, ?_, ?_⟩
    · intro p hp
      rcases List.mem_append.mp hp with hh | hh
      · exact Nat.lt_succ_of_lt (hidb p (List.mem_cons_of_mem _ hh))
      · have : p = (cache.id, (k, v)) := by simpa using hh
        subst this
        exact Nat.lt_succ_self _
    · intro p hp
      rcases List.mem_append.mp hp with hh | hh
      · have hkey0 : p.2.1 ≠ k0 := by
          intro he
          have hmm : p.2.1 ∈ rest.map (fun q => q.2.1) := List.mem_map_of_mem _ hh
          rw [he] at hmm
          exact hk0_notin_rest hmm
        have hkey : p.2.1 ≠ k := by
          intro he
          have := hlkA p (List.mem_cons_of_mem _ hh)
          rw [he, hlk] at this
          cases this
        rw [lookupA_insertA_ne _ _ _ _ hkey, lookupA_eraseA_ne _ _ _ hkey0]
        exact hlkA p (List.mem_cons_of_mem _ hh)
      · have : p = (cache.id, (k, v)) := by simpa using hh
        subst this
        exact lookupA_insertA_self _ _ _
    · intro q hq
      rw [insertA, eraseA_of_not_mem hk_notin'] at hq
      rcases List.mem_cons.mp hq with hh | hh
      · subst hh
        exact ⟨(cache.id, (k, v)), by simp, rfl, rfl⟩
      · obtain ⟨hq1, hq2⟩ := mem_eraseA hh
        obtain ⟨p, hp, h1, h2⟩ := hex q hq1
        rcases List.mem_cons.mp hp with hh2 | hh2
        · exact absurd (by rw [← h2, hh2]) hq2
        · exact ⟨p, List.mem_append.mpr (Or.inl hh2), h1, h2⟩
    · rw [length_insertA_of_not_mem hk_notin']
      simp only [List.length_cons] at hlen
      simp only [List.length_append, List.length_cons, List.length_nil]
      omega
    · rw [map_fst_insertA_of_not_mem hk_notin', List.nodup_cons]
      exact ⟨hk_notin', List.Nodup.sublist (map_fst_eraseA_sublist _ _) hndk⟩
    · rw [List.map_append, List.nodup_append]
      refine ⟨hndrest, by simp, ?_⟩
      intro a ha hmem2
      simp only [List.map_cons, List.map_nil, List.mem_singleton] at hmem2
      subst hmem2
      exact hk_notin_rep (List.mem_cons_of_mem _ ha)
    · show (insertA (eraseA cache.node_ids k0) k cache.id).length ≤ cache.capacity
      rw [length_insertA_of_not_mem hk_notin']
      simp only [LruCache.len] at heq
      omega

theorem LruCache.insert_spec_panic [DecidableEq K] {cache : LruCache K V} {k : K} (v : V)
    (h : CacheInv cache []) (hlk : lookupA cache.node_ids k = none)
    (heq : cache.len = cache.capacity) :
    cache.insert k v = none := by
  have hpop := Graph.pop_front_spec_nil h.1
  simp [LruCache.insert, hlk, if_pos heq, hpop]

@[simp] theorem run_nil [DecidableEq K] (cache : LruCache K V) :
    run cache [] = some cache := rfl

theorem run_cons [DecidableEq K] (cache : LruCache K V) (op : Op K V) (ops : List (Op K V)) :
    run cache (op :: ops) =
      match step cache op with
      | none => none
      | some cache' => run cache' ops := rfl

theorem CacheInv_new [DecidableEq K] (c : Nat) :
    CacheInv (LruCache.new c : LruCache K V) [] := by
  refine ⟨⟨trivial, rfl, rfl, rfl, List.nodup_nil, ?_, ?_⟩,
    ?_, ?_, ?_, rfl, ?_, List.nodup_nil, ?_⟩
  · simp [LruCache.new, Graph.with_capacity]
  · simp [LruCache.new, Graph.with_capacity]
  · simp
  · simp
  · simp [LruCache.new]
  · simp [LruCache.new]
  · show (0 : Nat) ≤ c
    exact Nat.zero_le c

theorem step_spec [DecidableEq K] {cache : LruCache K V} {rep : List (Nat × (K × V))}
    {op : Op K V} {cache' : LruCache K V}
    (h : CacheInv cache rep) (hstep : step cache op = some cache') :
    ∃ rep', CacheInv cache' rep' ∧ cache'.capacity = cache.capacity ∧
      cache.id ≤ cache'.id := by
  cases op with
  | get k =>
    simp only [step] at hstep
    cases hlk : lookupA cache.node_ids k with
    | none =>
      rw [LruCache.get_spec_absent hlk] at hstep
      simp only [Option.map_some', Option.some.injEq] at hstep
      exact ⟨rep, hstep ▸ h, hstep ▸ rfl, hstep ▸ le_rfl⟩
    | some i =>
      obtain ⟨v, l1, l2, hsplit⟩ := CacheInv_lookup_split h hlk
      obtain ⟨g2, hget, hinv⟩ := LruCache.get_spec_present h hsplit
      rw [hget] at hstep
      simp only [Option.map_some', Option.some.injEq] at hstep
      exact ⟨(l1 ++ l2) ++ [(i, (k, v))], hstep ▸ hinv, hstep ▸ rfl, hstep ▸ le_rfl⟩
  | insert k v =>
    simp only [step] at hstep
    cases hlk : lookupA cache.node_ids k with
    | some i =>
      obtain ⟨v0, l1, l2, hsplit⟩ := CacheInv_lookup_split h hlk
      obtain ⟨g2, hins, hinv⟩ := LruCache.insert_spec_hit h hsplit v
      rw [hins] at hstep
      simp only [Option.some.injEq] at hstep
      exact ⟨(l1 ++ l2) ++ [(i, (k, v0))], hstep ▸ hinv, hstep ▸ rfl, hstep ▸ le_rfl⟩
    | none =>
      by_cases hcap : cache.len = cache.capacity
      · cases rep with
        | nil =>
          rw [LruCache.insert_spec_panic v h hlk hcap] at hstep
          cases hstep
        | cons hd rest =>
          obtain ⟨i0, k0, v0⟩ := hd
          obtain ⟨g2, hins, hinv⟩ := LruCache.insert_spec_evict v h hlk hcap
          rw [hins] at hstep
          simp only [Option.some.injEq] at hstep
          exact ⟨rest ++ [(cache.id, (k, v))], hstep ▸ hinv, hstep ▸ rfl,
            hstep ▸ Nat.le_succ _⟩
      · obtain ⟨g2, hins, hinv⟩ := LruCache.insert_spec_new v h hlk hcap
        rw [hins] at hstep
        simp only [Option.some.injEq] at hstep
        exact ⟨rep ++ [(cache.id, (k, v))], hstep ▸ hinv, hstep ▸ rfl,
          hstep ▸ Nat.le_succ _⟩
  | remove k =>
    simp only [step] at hstep
    cases hlk : lookupA cache.node_ids k with
    | none =>
      rw [LruCache.remove_spec_absent hlk] at hstep
      simp only [Option.map_some', Option.some.injEq] at hstep
      exact ⟨rep, hstep ▸ h, hstep ▸ rfl, hstep ▸ le_rfl⟩
    | some i =>
      obtain ⟨v, l1, l2, hsplit⟩ := CacheInv_lookup_split h hlk
      obtain ⟨g', hrem, hinv⟩ := LruCache.remove_spec_present h hsplit
      rw [hrem] at hstep
      simp only [Option.map_some', Option.some.injEq] at hstep
      exact ⟨l1 ++ l2, hstep ▸ hinv, hstep ▸ rfl, hstep ▸ le_rfl⟩

theorem run_spec [DecidableEq K] {cache cache' : LruCache K V} {ops : List (Op K V)}
    {rep : List (Nat × (K × V))}
    (h : CacheInv cache rep) (hrun : run cache ops = some cache') :
    ∃ rep', CacheInv cache' rep' ∧ cache'.capacity = cache.capacity ∧
      cache.id ≤ cache'.id := by
  induction ops generalizing cache rep with
  | nil =>
    simp only [run_nil, Option.some.injEq] at hrun
    exact ⟨rep, hrun ▸ h, hrun ▸ rfl, hrun ▸ le_rfl⟩
  | cons op ops ih =>
    rw [run_cons] at hrun
    cases hstep : step cache op with
    | none => rw [hstep] at hrun; cases hrun
    | some cache1 =>
      rw [hstep] at hrun
      obtain ⟨rep1, h1, hc1, hi1⟩ := step_spec h hstep
      obtain ⟨rep', h', hc', hi'⟩ := ih h1 hrun
      exact ⟨rep', h', hc'.trans hc1, hi1.trans hi'⟩

theorem run_from_new_spec [DecidableEq K] {c : Nat} {ops : List (Op K V)}
    {cache : LruCache K V} (hrun : run (LruCache.new c) ops = some cache) :
    ∃ rep, CacheInv cache rep ∧ cache.capacity = c := by
  obtain ⟨rep, h, hc, -⟩ := run_spec (CacheInv_new c) hrun
  exact ⟨rep, h, hc⟩

theorem keys_ne_of_nodup {l1 l2 : List (Nat × (K × V))} {i : Nat} {k : K} {v : V}
    (hnd : ((l1 ++ (i, (k, v)) :: l2).map (fun p => p.2.1)).Nodup) :
    ∀ p ∈ l1 ++ l2, p.2.1 ≠ k := by
  rw [List.map_append, List.map_cons, List.nodup_append] at hnd
  obtain ⟨-, hnd2, hdisj⟩ := hnd
  rw [List.nodup_cons] at hnd2
  intro p hp he
  rcases List.mem_append.mp hp with hh | hh
  · have hmm : p.2.1 ∈ l1.map (fun q => q.2.1) := List.mem_map_of_mem _ hh
    rw [he] at hmm
    exact hdisj hmm (List.mem_cons_self _ _)
  · have hmm : p.2.1 ∈ l2.map (fun q => q.2.1) := List.mem_map_of_mem _ hh
    rw [he] at hmm
    exact hnd2.1 hmm

theorem stamp_touch [DecidableEq K] {st : K → Option Nat} {t : Nat}
    {pre : List (Nat × (K × V))} (i : Nat) (k : K) (v : V)
    (hbound : ∀ p ∈ pre, ∃ s, st p.2.1 = some s ∧ s < t)
    (hpw : pre.Pairwise (stampLt st))
    (hkey : ∀ p ∈ pre, p.2.1 ≠ k) :
    (∀ p ∈ pre ++ [(i, (k, v))], ∃ s,
        (fun k1 => if k1 = k then some t else st k1) p.2.1 = some s ∧ s < t + 1) ∧
    (pre ++ [(i, (k, v))]).Pairwise (stampLt (fun k1 => if k1 = k then some t else st k1)) := by
  constructor
  · intro p hp
    rcases List.mem_append.mp hp with hh | hh
    · obtain ⟨s, hs, hlt⟩ := hbound p hh
      refine ⟨s, ?_, Nat.lt_succ_of_lt hlt⟩
      simpa [hkey p hh] using hs
    · have : p = (i, (k, v)) := by simpa using hh
      subst this
      exact ⟨t, by simp, Nat.lt_succ_self t⟩
  · rw [List.pairwise_append]
    refine ⟨?_, List.pairwise_singleton _ _, ?_⟩
    · refine List.Pairwise.imp_of_mem ?_ hpw
      intro a b ha hb hab s1 s2 h1 h2
      apply hab s1 s2
      · simpa [hkey a ha] using h1
      · simpa [hkey b hb] using h2
    · intro a ha b hb
      have : b = (i, (k, v)) := by simpa using hb
      subst this
      intro s1 s2 h1 h2
      have h2' : s2 = t := by simpa using h2.symm
      subst h2'
      obtain ⟨s, hs, hlt⟩ := hbound a ha
      have h1' : st a.2.1 = some s1 := by simpa [hkey a ha] using h1
      rw [hs] at h1'
      injection h1' with h1'
      subst h1'
      exact hlt

theorem stamp_keep [DecidableEq K] {st : K → Option Nat} {t : Nat}
    {rep rep1 : List (Nat × (K × V))} (hsub : rep1.Sublist rep)
    (hbound : ∀ p ∈ rep, ∃ s, st p.2.1 = some s ∧ s < t)
    (hpw : rep.Pairwise (stampLt st)) :
    (∀ p ∈ rep1, ∃ s, st p.2.1 = some s ∧ s < t + 1) ∧
    rep1.Pairwise (stampLt st) := by
  constructor
  · intro p hp
    obtain ⟨s, hs, hlt⟩ := hbound p (hsub.subset hp)
    exact ⟨s, hs, Nat.lt_succ_of_lt hlt⟩
  · exact hpw.sublist hsub

theorem stamp_step [DecidableEq K] {cache cache1 : LruCache K V}
    {rep : List (Nat × (K × V))} {st : K → Option Nat} {t : Nat} {op : Op K V}
    (h : StampInv cache rep st t) (hstep : step cache op = some cache1) :
    ∃ rep1, StampInv cache1 rep1 (stampUpd cache op t st) (t + 1) := by
  obtain ⟨hinv, hbound, hpw⟩ := h
  cases op with
  | get k =>
    simp only [step] at hstep
    cases hlk : lookupA cache.node_ids k with
    | none =>
      rw [LruCache.get_spec_absent hlk] at hstep
      simp only [Option.map_some', Option.some.injEq] at hstep
      subst hstep
      refine ⟨rep, hinv, ?_, ?_⟩
      · simp only [stampUpd, hlk]
        intro p hp
        obtain ⟨s, hs, hlt⟩ := hbound p hp
        exact ⟨s, hs, Nat.lt_succ_of_lt hlt⟩
      · simp only [stampUpd, hlk]
        exact hpw
    | some i =>
      obtain ⟨v, l1, l2, hsplit⟩ := CacheInv_lookup_split hinv hlk
      obtain ⟨g2, hget, hinv1⟩ := LruCache.get_spec_present hinv hsplit
      rw [hget] at hstep
      simp only [Option.map_some', Option.some.injEq] at hstep
      subst hstep
      subst hsplit
      have hkey := keys_ne_of_nodup hinv.2.2.2.2.2.2.1
      have hsub : (l1 ++ l2).Sublist (l1 ++ (i, (k, v)) :: l2) :=
        (List.sublist_cons_self _ l2).append_left l1
      obtain ⟨hb1, hp1⟩ := stamp_keep hsub hbound hpw
      have hb1' : ∀ p ∈ l1 ++ l2, ∃ s, st p.2.1 = some s ∧ s < t := by
        intro p hp
        obtain ⟨s, hs, hlt⟩ := hbound p (hsub.subset hp)
        exact ⟨s, hs, hlt⟩
      obtain ⟨hb2, hp2⟩ := stamp_touch i k v hb1' hp1 hkey
      refine ⟨(l1 ++ l2) ++ [(i, (k, v))], hinv1, ?_, ?_⟩
      · simp only [stampUpd, hlk]
        exact hb2
      · simp only [stampUpd, hlk]
        exact hp2
  | insert k v =>
    simp only [step] at hstep
    cases hlk : lookupA cache.node_ids k with
    | some i =>
      obtain ⟨v0, l1, l2, hsplit⟩ := CacheInv_lookup_split hinv hlk
      obtain ⟨g2, hins, hinv1⟩ := LruCache.insert_spec_hit hinv hsplit v
      rw [hins] at hstep
      simp only [Option.some.injEq] at hstep
      subst hstep
      subst hsplit
      have hkey := keys_ne_of_nodup hinv.2.2.2.2.2.2.1
      have hsub : (l1 ++ l2).Sublist (l1 ++ (i, (k, v0)) :: l2) :=
        (List.sublist_cons_self _ l2).append_left l1
      obtain ⟨-, hp1⟩ := stamp_keep hsub hbound hpw
      have hb1' : ∀ p ∈ l1 ++ l2, ∃ s, st p.2.1 = some s ∧ s < t := by
        intro p hp
        obtain ⟨s, hs, hlt⟩ := hbound p (hsub.subset hp)
        exact ⟨s, hs, hlt⟩
      obtain ⟨hb2, hp2⟩ := stamp_touch i k v0 hb1' hp1 hkey
      exact ⟨(l1 ++ l2) ++ [(i, (k, v0))], hinv1, by simpa [stampUpd] using hb2,
        by simpa [stampUpd] using hp2⟩
    | none =>
      have hkeyall : ∀ p ∈ rep, p.2.1 ≠ k := by
        intro p hp he
        have := hinv.2.2.1 p hp
        rw [he, hlk] at this
        cases this
      by_cases hcap : cache.len = cache.capacity
      · cases rep with
        | nil =>
          rw [LruCache.insert_spec_panic v hinv hlk hcap] at hstep
          cases hstep
        | cons hd rest =>
          obtain ⟨i0, k0, v0⟩ := hd
          obtain ⟨g2, hins, hinv1⟩ := LruCache.insert_spec_evict v hinv hlk hcap
          rw [hins] at hstep
          simp only [Option.some.injEq] at hstep
          subst hstep
          have hsub : rest.Sublist ((i0, (k0, v0)) :: rest) := List.sublist_cons_self _ _
          obtain ⟨-, hp1⟩ := stamp_keep hsub hbound hpw
          have hb1' : ∀ p ∈ rest, ∃ s, st p.2.1 = some s ∧ s < t := by
            intro p hp
            obtain ⟨s, hs, hlt⟩ := hbound p (hsub.subset hp)
            exact ⟨s, hs, hlt⟩
          have hkey : ∀ p ∈ rest, p.2.1 ≠ k := fun p hp =>
            hkeyall p (List.mem_cons_of_mem _ hp)
          obtain ⟨hb2, hp2⟩ := stamp_touch cache.id k v hb1' hp1 hkey
          exact ⟨rest ++ [(cache.id, (k, v))], hinv1, by simpa [stampUpd] using hb2,
            by simpa [stampUpd] using hp2⟩
      · obtain ⟨g2, hins, hinv1⟩ := LruCache.insert_spec_new v hinv hlk hcap
        rw [hins] at hstep
        simp only [Option.some.injEq] at hstep
        subst hstep
        have hb1' : ∀ p ∈ rep, ∃ s, st p.2.1 = some s ∧ s < t := hbound
        obtain ⟨hb2, hp2⟩ := stamp_touch cache.id k v hb1' hpw hkeyall
        exact ⟨rep ++ [(cache.id, (k, v))], hinv1, by simpa [stampUpd] using hb2,
          by simpa [stampUpd] using hp2⟩
  | remove k =>
    simp only [step] at hstep
    cases hlk : lookupA cache.node_ids k with
    | none =>
      rw [LruCache.remove_spec_absent hlk] at hstep
      simp only [Option.map_some', Option.some.injEq] at hstep
      subst hstep
      refine ⟨rep, hinv, ?_, ?_⟩
      · simp only [stampUpd]
        intro p hp
        obtain ⟨s, hs, hlt⟩ := hbound p hp
        exact ⟨s, hs, Nat.lt_succ_of_lt hlt⟩
      · simp only [stampUpd]
        exact hpw
    | some i =>
      obtain ⟨v, l1, l2, hsplit⟩ := CacheInv_lookup_split hinv hlk
      obtain ⟨g1, hrem, hinv1⟩ := LruCache.remove_spec_present hinv hsplit
      rw [hrem] at hstep
      simp only [Option.map_some', Option.some.injEq] at hstep
      subst hstep
      subst hsplit
      have hsub : (l1 ++ l2).Sublist (l1 ++ (i, (k, v)) :: l2) :=
        (List.sublist_cons_self _ l2).append_left l1
      obtain ⟨hb1, hp1⟩ := stamp_keep hsub hbound hpw
      exact ⟨l1 ++ l2, hinv1, by simpa [stampUpd] using hb1,
        by simpa [stampUpd] using hp1⟩

theorem runT_spec [DecidableEq K] {t : Nat} {cache cache1 : LruCache K V}
    {st st1 : K → Option Nat} {ops : List (Op K V)} {rep : List (Nat × (K × V))}
    (h : StampInv cache rep st t) (hrun : runT t cache st ops = some (cache1, st1)) :
    ∃ rep1 t1, StampInv cache1 rep1 st1 t1 := by
  induction ops generalizing t cache st rep with
  | nil =>
    simp only [runT, Option.some.injEq, Prod.mk.injEq] at hrun
    obtain ⟨h1, h2⟩ := hrun
    subst h1
    subst h2
    exact ⟨rep, t, h⟩
  | cons op ops ih =>
    simp only [runT] at hrun
    cases hstep : step cache op with
    | none => rw [hstep] at hrun; cases hrun
    | some cacheM =>
      rw [hstep] at hrun
      obtain ⟨rep1, h1⟩ := stamp_step h hstep
      exact ih h1 hrun

theorem StampInv_new [DecidableEq K] (c : Nat) :
    StampInv (LruCache.new c : LruCache K V) [] (fun _ => none) 0 :=
  ⟨CacheInv_new c, by simp, List.Pairwise.nil⟩

/-! ## The claims -/

/-- C1: for every trace of operations from a fresh cache, when an insert
of a new key occurs while `len() = capacity()`, the evicted entry (the
key present before and absent after) is the one least recently touched
by `get` or `insert` among the entries present at that moment: its touch
stamp is strictly below every other present key's stamp. -/
theorem claim_C1 {K : Type u} {V : Type v} [DecidableEq K] (c : Nat)
    (ops : List (Op K V)) (cache : LruCache K V) (st : K → Option Nat)
    (k : K) (v : V) (cache' : LruCache K V)
    (hrun : runT 0 (LruCache.new c) (fun _ => none) ops = some (cache, st))
    (habs : lookupA cache.node_ids k = none)
    (hful : cache.len = cache.capacity)
    (hins : cache.insert k v = some cache') :
    ∃ k0 t0, k0 ∈ cache.node_ids.map Prod.fst ∧
      k0 ∉ cache'.node_ids.map Prod.fst ∧ st k0 = some t0 ∧
      ∀ k1 ∈ cache.node_ids.map Prod.fst, k1 ≠ k0 →
        ∃ t1, st k1 = some t1 ∧ t0 < t1 := by
  obtain ⟨rep, T, hsi⟩ := runT_spec (StampInv_new c) hrun
  obtain ⟨hinv, hbound, hpw⟩ := hsi
  cases rep with
  | nil =>
    rw [LruCache.insert_spec_panic v hinv habs hful] at hins
    cases hins
  | cons hd rest =>
    obtain ⟨i0, k0, v0⟩ := hd
    obtain ⟨g2, hins2, hinv2⟩ := LruCache.insert_spec_evict v hinv habs hful
    rw [hins2] at hins
    simp only [Option.some.injEq] at hins
    subst hins
    have hlk0 : lookupA cache.node_ids k0 = some i0 :=
      hinv.2.2.1 _ (List.mem_cons_self _ _)
    have hk0mem : k0 ∈ cache.node_ids.map Prod.fst := mem_map_fst_of_lookupA hlk0
    obtain ⟨t0, ht0, -⟩ := hbound (i0, (k0, v0)) (List.mem_cons_self _ _)
    have hk_ne : k0 ≠ k := by
      intro he
      rw [he, habs] at hlk0
      cases hlk0
    have hk_notin : k ∉ cache.node_ids.map Prod.fst := by
      intro hm
      obtain ⟨b, hb⟩ := lookupA_isSome_of_mem hm
      rw [habs] at hb
      cases hb
    have hk_notin' : k ∉ (eraseA cache.node_ids k0).map Prod.fst := fun hm =>
      hk_notin ((map_fst_eraseA_sublist _ _).subset hm)
    refine ⟨k0, t0, hk0mem, ?_, ht0, ?_⟩
    · show k0 ∉ (insertA (eraseA cache.node_ids k0) k cache.id).map Prod.fst
      intro hmem
      rw [map_fst_insertA_of_not_mem hk_notin'] at hmem
      rcases List.mem_cons.mp hmem with hh | hh
      · exact hk_ne hh
      · exact not_mem_map_fst_eraseA _ _ hh
    · intro k1 hk1 hne
      rcases List.mem_map.mp hk1 with ⟨q, hq, rfl⟩
      obtain ⟨p, hp, h1, h2⟩ := hinv.2.2.2.1 q hq
      rcases List.mem_cons.mp hp with hh | hh
      · exact absurd (by rw [← h2, hh]) hne
      · obtain ⟨t1, htp, -⟩ := hbound p (List.mem_cons_of_mem _ hh)
        rw [List.pairwise_cons] at hpw
        refine ⟨t1, ?_, hpw.1 p hh t0 t1 ht0 htp⟩
        rw [← h2]
        exact htp

/-- C2: after any sequence of operations that completes from a fresh
cache, `len() ≤ capacity()` holds and the key index and the arena node
map have equal size. -/
theorem claim_C2 {K : Type u} {V : Type v} [DecidableEq K] (c : Nat)
    (ops : List (Op K V)) (cache : LruCache K V)
    (hrun : run (LruCache.new c) ops = some cache) :
    cache.len ≤ cache.capacity ∧
      cache.node_ids.length = cache.graph.nodes.length := by
  obtain ⟨rep, hinv, -⟩ := run_from_new_spec hrun
  refine ⟨hinv.2.2.2.2.2.2.2, ?_⟩
  have h1 := hinv.2.2.2.2.1
  have h2 := hinv.1.2.2.2.1
  omega

/-- C3: inserting an already-present key `k` (stored value `v`) with a
new value `v'` completes, leaves the key index and `len()` unchanged,
moves `k`'s entry to the most-recently-used position of the recency
list, keeps the same set of entries (no entry created, removed or
evicted) with `v` still stored (`v'` is discarded): a subsequent `get k`
returns `v`. -/
theorem claim_C3 {K : Type u} {V : Type v} [DecidableEq K] (cache : LruCache K V)
    (rep l1 l2 : List (Nat × (K × V))) (i : Nat) (k : K) (v v' : V)
    (h : CacheInv cache rep) (hsplit : rep = l1 ++ (i, (k, v)) :: l2) :
    ∃ g2, cache.insert k v' = some { cache with graph := g2 } ∧
      ({ cache with graph := g2 } : LruCache K V).node_ids = cache.node_ids ∧
      ({ cache with graph := g2 } : LruCache K V).len = cache.len ∧
      CacheInv { cache with graph := g2 } ((l1 ++ l2) ++ [(i, (k, v))]) ∧
      ((l1 ++ l2) ++ [(i, (k, v))]).Perm rep ∧
      ∃ cache2, ({ cache with graph := g2 } : LruCache K V).get k =
        some (some v, cache2) := by
  obtain ⟨g2, hins, hinv2⟩ := LruCache.insert_spec_hit h hsplit v'
  refine ⟨g2, hins, rfl, rfl, hinv2, ?_, ?_⟩
  · rw [hsplit]
    exact (perm_rotate l1 l2 (i, (k, v))).symm
  · obtain ⟨g3, hget, -⟩ := LruCache.get_spec_present hinv2 rfl
    exact ⟨_, hget⟩

/-- Rust's map never reports less capacity than was requested. -/
theorem le_hashbrownCapacity (c : Nat) : c ≤ hashbrownCapacity c := by
  unfold hashbrownCapacity
  split_ifs with h0 h4 h8
  · omega
  · omega
  · omega
  · unfold nextPow2
    have hB : c * 8 / 7 ≤ 2 ^ Nat.clog 2 (c * 8 / 7) :=
      Nat.le_pow_clog (by norm_num) _
    have h9 : 9 ≤ c * 8 / 7 := by omega
    have hk : 4 ≤ Nat.clog 2 (c * 8 / 7) := by
      by_contra hcon
      push_neg at hcon
      have hle : (2 : Nat) ^ Nat.clog 2 (c * 8 / 7) ≤ 2 ^ 3 :=
        Nat.pow_le_pow_right (by norm_num) (by omega)
      have h8' : (2 : Nat) ^ 3 = 8 := by norm_num
      omega
    have hsplit : (2 : Nat) ^ Nat.clog 2 (c * 8 / 7) =
        8 * 2 ^ (Nat.clog 2 (c * 8 / 7) - 3) := by
      conv_lhs => rw [show Nat.clog 2 (c * 8 / 7) = 3 + (Nat.clog 2 (c * 8 / 7) - 3) by omega]
      rw [pow_add]
      norm_num
    rw [hsplit, Nat.mul_div_cancel_left _ (by norm_num : (0 : Nat) < 8)]
    rw [hsplit] at hB
    omega

theorem CacheInv_newStd [DecidableEq K] (c : Nat) :
    CacheInv (LruCache.newStd c : LruCache K V) [] := by
  refine ⟨⟨trivial, rfl, rfl, rfl, List.nodup_nil, ?_, ?_⟩,
    ?_, ?_, ?_, rfl, ?_, List.nodup_nil, ?_⟩
  · simp [LruCache.newStd, Graph.with_capacity]
  · simp [LruCache.newStd, Graph.with_capacity]
  · simp
  · simp
  · simp [LruCache.newStd]
  · simp [LruCache.newStd]
  · show (0 : Nat) ≤ hashbrownCapacity c
    exact Nat.zero_le _

/-- C4 (amended): `capacity()` returns the hash map's actual capacity —
a fixed value at least `c`, not necessarily `c` itself — and that value
is unchanged after every completed sequence of operations on the
instance. -/
theorem claim_C4 {K : Type u} {V : Type v} [DecidableEq K] (c : Nat)
    (ops : List (Op K V)) (cache : LruCache K V)
    (hrun : run (LruCache.newStd c) ops = some cache) :
    c ≤ (LruCache.newStd c : LruCache K V).capacity ∧
      cache.capacity = (LruCache.newStd c : LruCache K V).capacity := by
  obtain ⟨rep, -, hc, -⟩ := run_spec (CacheInv_newStd c) hrun
  exact ⟨le_hashbrownCapacity c, hc⟩

/-- C4 counterexample: a cache constructed with requested capacity 1
reports capacity 3, not 1 — std's map allocates 4 buckets for the
request and reports 3 usable slots, so `capacity()` does not return
exactly the constructor argument. -/
theorem claim_C4_counterexample :
    (LruCache.newStd 1 : LruCache Nat Nat).capacity ≠ 1 := by decide

/-- C5 (amended): with capacity 0, `insert` of a new key does not
complete normally: the eviction branch unwraps `pop_front` of the empty
arena and panics. -/
theorem claim_C5 {K : Type u} {V : Type v} [DecidableEq K] (cache : LruCache K V)
    (rep : List (Nat × (K × V))) (k : K) (v : V)
    (h : CacheInv cache rep) (hc : cache.capacity = 0) :
    cache.insert k v = none := by
  have hlen0 : cache.node_ids.length = 0 := by
    have := h.2.2.2.2.2.2.2
    omega
  have hnil : cache.node_ids = [] := List.eq_nil_of_length_eq_zero hlen0
  have hrep : rep = [] := by
    have hl := h.2.2.2.2.1
    rw [hlen0] at hl
    exact (List.eq_nil_of_length_eq_zero hl.symm)
  have hlk : lookupA cache.node_ids k = none := by
    rw [hnil]
    rfl
  have hcap : cache.len = cache.capacity := by
    rw [LruCache.len, hlen0, hc]
  exact LruCache.insert_spec_panic v (hrep ▸ h) hlk hcap

/-- C5 counterexample: on a capacity-0 cache the insert does not
complete as a "no-op store" — it panics (returns `none`). -/
theorem claim_C5_counterexample :
    (LruCache.new 0 : LruCache Nat Nat).insert 5 6 = none := rfl

/-- C6: when `k` is present with value `v`, `get k` returns `v`, keeps
`len()` unchanged, moves `k` to the most-recently-used position while
keeping exactly the same set of entries (no other entry's value or
membership changes); when `k` is absent, `get k` returns nothing and
leaves the state completely unchanged. -/
theorem claim_C6 {K : Type u} {V : Type v} [DecidableEq K] (cache : LruCache K V)
    (rep : List (Nat × (K × V))) (k : K) (h : CacheInv cache rep) :
    (∀ (l1 l2 : List (Nat × (K × V))) (i : Nat) (v : V),
      rep = l1 ++ (i, (k, v)) :: l2 →
      ∃ g2, cache.get k = some (some v, { cache with graph := g2 }) ∧
        ({ cache with graph := g2 } : LruCache K V).len = cache.len ∧
        CacheInv { cache with graph := g2 } ((l1 ++ l2) ++ [(i, (k, v))]) ∧
        ((l1 ++ l2) ++ [(i, (k, v))]).Perm rep) ∧
    (k ∉ cache.node_ids.map Prod.fst → cache.get k = some (none, cache)) := by
  constructor
  · intro l1 l2 i v hsplit
    obtain ⟨g2, hget, hinv2⟩ := LruCache.get_spec_present h hsplit
    refine ⟨g2, hget, rfl, hinv2, ?_⟩
    rw [hsplit]
    exact (perm_rotate l1 l2 (i, (k, v))).symm
  · intro habs
    exact LruCache.get_spec_absent (lookupA_eq_none_of_not_mem habs)

/-- C7: `remove k` followed immediately by `get k` yields not-found in
both cases; when `k` is present with value `v`, `remove k` returns `v`
and decreases `len()` by exactly one, and when `k` is absent it returns
nothing with the state (hence `len()`) unchanged. -/
theorem claim_C7 {K : Type u} {V : Type v} [DecidableEq K] (cache : LruCache K V)
    (rep : List (Nat × (K × V))) (k : K) (h : CacheInv cache rep) :
    (∀ (l1 l2 : List (Nat × (K × V))) (i : Nat) (v : V),
      rep = l1 ++ (i, (k, v)) :: l2 →
      ∃ cache', cache.remove k = some (some v, cache') ∧
        cache'.len + 1 = cache.len ∧
        cache'.get k = some (none, cache')) ∧
    (k ∉ cache.node_ids.map Prod.fst →
      cache.remove k = some (none, cache) ∧
      cache.get k = some (none, cache)) := by
  constructor
  · intro l1 l2 i v hsplit
    obtain ⟨g', hrem, hinv'⟩ := LruCache.remove_spec_present h hsplit
    refine ⟨_, hrem, ?_, ?_⟩
    · show (eraseA cache.node_ids k).length + 1 = cache.node_ids.length
      apply length_eraseA_of_mem h.2.2.2.2.2.1
      apply mem_map_fst_of_lookupA
      exact h.2.2.1 (i, (k, v)) (by rw [hsplit]; simp)
    · apply LruCache.get_spec_absent
      show lookupA (eraseA cache.node_ids k) k = none
      exact lookupA_eraseA_self _ _
  · intro habs
    have hlk := lookupA_eq_none_of_not_mem habs
    exact ⟨LruCache.remove_spec_absent hlk, LruCache.get_spec_absent hlk⟩

/-- C8: when `k` is not present and `insert k v` completes, an
immediately following `get k` yields `v`. -/
theorem claim_C8 {K : Type u} {V : Type v} [DecidableEq K] (cache : LruCache K V)
    (rep : List (Nat × (K × V))) (k : K) (v : V) (cache' : LruCache K V)
    (h : CacheInv cache rep) (habs : k ∉ cache.node_ids.map Prod.fst)
    (hins : cache.insert k v = some cache') :
    ∃ cache'', cache'.get k = some (some v, cache'') := by
  have hlk : lookupA cache.node_ids k = none := lookupA_eq_none_of_not_mem habs
  by_cases hcap : cache.len = cache.capacity
  · cases rep with
    | nil =>
      rw [LruCache.insert_spec_panic v h hlk hcap] at hins
      cases hins
    | cons hd rest =>
      obtain ⟨i0, k0, v0⟩ := hd
      obtain ⟨g2, hins2, hinv2⟩ := LruCache.insert_spec_evict v h hlk hcap
      rw [hins2] at hins
      simp only [Option.some.injEq] at hins
      subst hins
      obtain ⟨g3, hget, -⟩ := LruCache.get_spec_present hinv2 rfl
      exact ⟨_, hget⟩
  · obtain ⟨g2, hins2, hinv2⟩ := LruCache.insert_spec_new v h hlk hcap
    rw [hins2] at hins
    simp only [Option.some.injEq] at hins
    subst hins
    obtain ⟨g3, hget, -⟩ := LruCache.get_spec_present hinv2 rfl
    exact ⟨_, hget⟩

/-- C9: every state reachable from a fresh cache satisfies the full
structural invariant (doubly linked recency list and 1:1 key/arena
correspondence); from such a state `get` and `remove` never panic, any
completed `insert` re-establishes the invariant, and the only panic
`insert` can hit is the `pop_front` unwrap on the empty arena with
capacity 0 — never a consistency-violating arena lookup. -/
theorem claim_C9 {K : Type u} {V : Type v} [DecidableEq K] (c : Nat)
    (ops : List (Op K V)) (cache : LruCache K V)
    (hrun : run (LruCache.new c) ops = some cache) :
    ∃ rep, CacheInv cache rep ∧
      (∀ k, cache.get k ≠ none) ∧
      (∀ k, cache.remove k ≠ none) ∧
      (∀ k v cache1, cache.insert k v = some cache1 → ∃ rep1, CacheInv cache1 rep1) ∧
      (∀ k v, cache.insert k v = none →
        cache.capacity = 0 ∧ cache.node_ids = [] ∧ cache.graph.head_id = none) := by
  obtain ⟨rep, hinv, -⟩ := run_from_new_spec hrun
  refine ⟨rep, hinv, ?_, ?_, ?_, ?_⟩
  · intro k
    cases hlk : lookupA cache.node_ids k with
    | none =>
      rw [LruCache.get_spec_absent hlk]
      simp
    | some i =>
      obtain ⟨v, l1, l2, hsplit⟩ := CacheInv_lookup_split hinv hlk
      obtain ⟨g2, hget, -⟩ := LruCache.get_spec_present hinv hsplit
      rw [hget]
      simp
  · intro k
    cases hlk : lookupA cache.node_ids k with
    | none =>
      rw [LruCache.remove_spec_absent hlk]
      simp
    | some i =>
      obtain ⟨v, l1, l2, hsplit⟩ := CacheInv_lookup_split hinv hlk
      obtain ⟨g', hrem, -⟩ := LruCache.remove_spec_present hinv hsplit
      rw [hrem]
      simp
  · intro k v cache1 hins
    have hstep : step cache (Op.insert k v) = some cache1 := hins
    obtain ⟨rep1, h1, -, -⟩ := step_spec hinv hstep
    exact ⟨rep1, h1⟩
  · intro k v hnone
    cases hlk : lookupA cache.node_ids k with
    | some i =>
      obtain ⟨v0, l1, l2, hsplit⟩ := CacheInv_lookup_split hinv hlk
      obtain ⟨g2, hins, -⟩ := LruCache.insert_spec_hit hinv hsplit v
      rw [hins] at hnone
      cases hnone
    | none =>
      by_cases hcap : cache.len = cache.capacity
      · cases rep with
        | nil =>
          have hlen := hinv.2.2.2.2.1
          have hnil : cache.node_ids = [] :=
            List.eq_nil_of_length_eq_zero (by simpa using hlen)
          have hcap0 : cache.capacity = 0 := by
            simp only [LruCache.len] at hcap
            rw [hnil] at hcap
            exact hcap.symm
          refine ⟨hcap0, hnil, ?_⟩
          have hh := hinv.1.2.1
          simpa using hh
        | cons hd rest =>
          obtain ⟨i0, k0, v0⟩ := hd
          obtain ⟨g2, hins, -⟩ := LruCache.insert_spec_evict v hinv hlk hcap
          rw [hins] at hnone
          cases hnone
      · obtain ⟨g2, hins, -⟩ := LruCache.insert_spec_new v hinv hlk hcap
        rw [hins] at hnone
        cases hnone

/-- C10: removing an absent key returns nothing and leaves the entire
cache state — key index, arena (with its recency order) and id counter —
exactly as before the call. -/
theorem claim_C10 {K : Type u} {V : Type v} [DecidableEq K] (cache : LruCache K V)
    (k : K) (habs : k ∉ cache.node_ids.map Prod.fst) :
    cache.remove k = some (none, cache) :=
  LruCache.remove_spec_absent (lookupA_eq_none_of_not_mem habs)

/-! ## Witnesses -/

/-- C1 at a concrete input: a capacity-1 cache holding key 1; inserting
key 2 evicts key 1, the least recently touched key. -/
theorem claim_C1_witness :
    ∃ k0 t0, k0 ∈ cacheC1.node_ids.map Prod.fst ∧
      k0 ∉ cacheC1'.node_ids.map Prod.fst ∧ stC1 k0 = some t0 ∧
      ∀ k1 ∈ cacheC1.node_ids.map Prod.fst, k1 ≠ k0 →
        ∃ t1, stC1 k1 = some t1 ∧ t0 < t1 :=
  claim_C1 1 trC1 cacheC1 stC1 2 20 cacheC1' (by rfl) (by rfl) (by rfl) (by rfl)

/-- C2 at a concrete input. -/
theorem claim_C2_witness :
    cacheW.len ≤ cacheW.capacity ∧
      cacheW.node_ids.length = cacheW.graph.nodes.length :=
  claim_C2 2 trW cacheW (by rfl)

/-- C3 at a concrete input: re-inserting key 1 with value 99 keeps the
stored value 10. -/
theorem claim_C3_witness :
    ∃ g2, cacheW.insert 1 99 = some { cacheW with graph := g2 } ∧
      ({ cacheW with graph := g2 } : LruCache Nat Nat).node_ids = cacheW.node_ids ∧
      ({ cacheW with graph := g2 } : LruCache Nat Nat).len = cacheW.len ∧
      CacheInv { cacheW with graph := g2 } (([] ++ [(1, (2, 20))]) ++ [(0, (1, 10))]) ∧
      (([] ++ [(1, (2, 20))]) ++ [(0, (1, 10))]).Perm repW ∧
      ∃ cache2, ({ cacheW with graph := g2 } : LruCache Nat Nat).get 1 =
        some (some 10, cache2) :=
  claim_C3 cacheW repW [] [(1, (2, 20))] 0 1 10 99 (by decide) (by rfl)

/-- C4 (amended) at a concrete input: the cache built for a request of
1 reports capacity 3 (≥ 1), and still reports 3 after an insert. -/
theorem claim_C4_witness :
    1 ≤ (LruCache.newStd 1 : LruCache Nat Nat).capacity ∧
      cacheC4.capacity = (LruCache.newStd 1 : LruCache Nat Nat).capacity :=
  claim_C4 1 trC4 cacheC4 (by rfl)

/-- C5 (amended) at a concrete input: insert on the fresh capacity-0
cache panics. -/
theorem claim_C5_witness :
    (LruCache.new 0 : LruCache Nat Nat).insert 3 4 = none :=
  claim_C5 (LruCache.new 0) [] 3 4 (by decide) rfl

/-- C6 at a concrete input. -/
theorem claim_C6_witness :
    (∀ (l1 l2 : List (Nat × (Nat × Nat))) (i : Nat) (v : Nat),
      repW = l1 ++ (i, (1, v)) :: l2 →
      ∃ g2, cacheW.get 1 = some (some v, { cacheW with graph := g2 }) ∧
        ({ cacheW with graph := g2 } : LruCache Nat Nat).len = cacheW.len ∧
        CacheInv { cacheW with graph := g2 } ((l1 ++ l2) ++ [(i, (1, v))]) ∧
        ((l1 ++ l2) ++ [(i, (1, v))]).Perm repW) ∧
    ((1 : Nat) ∉ cacheW.node_ids.map Prod.fst → cacheW.get 1 = some (none, cacheW)) :=
  claim_C6 cacheW repW 1 (by decide)

/-- C7 at a concrete input. -/
theorem claim_C7_witness :
    (∀ (l1 l2 : List (Nat × (Nat × Nat))) (i : Nat) (v : Nat),
      repW = l1 ++ (i, (2, v)) :: l2 →
      ∃ cache', cacheW.remove 2 = some (some v, cache') ∧
        cache'.len + 1 = cacheW.len ∧
        cache'.get 2 = some (none, cache')) ∧
    ((2 : Nat) ∉ cacheW.node_ids.map Prod.fst →
      cacheW.remove 2 = some (none, cacheW) ∧
      cacheW.get 2 = some (none, cacheW)) :=
  claim_C7 cacheW repW 2 (by decide)

/-- C8 at a concrete input: inserting the fresh key 3 and reading it
back yields its value 30. -/
theorem claim_C8_witness :
    ∃ cache'', cacheW3.get 3 = some (some 30, cache'') :=
  claim_C8 cacheW repW 3 30 cacheW3 (by decide) (by decide) (by rfl)

/-- C9 at a concrete input. -/
theorem claim_C9_witness :
    ∃ rep, CacheInv cacheW rep ∧
      (∀ k, cacheW.get k ≠ none) ∧
      (∀ k, cacheW.remove k ≠ none) ∧
      (∀ k v cache1, cacheW.insert k v = some cache1 → ∃ rep1, CacheInv cache1 rep1) ∧
      (∀ k v, cacheW.insert k v = none →
        cacheW.capacity = 0 ∧ cacheW.node_ids = [] ∧ cacheW.graph.head_id = none) :=
  claim_C9 2 trW cacheW (by rfl)

/-- C10 at a concrete input. -/
theorem claim_C10_witness : cacheW.remove 7 = some (none, cacheW) :=
  claim_C10 cacheW 7 (by decide)

end LruSpec
